import Mathlib

/-!
factorio-calculator: rate arithmetic, the recipe-tree walk and the graph.

A shallow embedding of `main.go` and `crafting/crafting.go`.

* `float32` values are read as exact: a value is a rational number, an
  infinity, or NaN (`FVal`).  Rounding, overflow to infinity and underflow are
  not modelled.  The sign of an infinity is not tracked (it depends on the sign
  of a floating-point zero, which the exact reading does not have).
  The variants `fmulR`, `fdivR`, `FurnaceCountR`, `DrillCountR`, `OreCountR`
  and `BeltCountR` pass every finite result through a rounding function, for
  statements that must not depend on the exact reading.
* `map[string]crafting.Recipe` is an association list read with `List.lookup`.
* A Go slice that may be `nil` is an `Option (List _)`: `none` is the `nil`
  slice, `some []` is an empty slice that is not `nil`.
* `printParts` writes to standard output and mutates a shared `*int`; both are
  threaded through as a `PrintState`.  Its recursion is bounded by a fuel
  argument; `Outcome.outOfFuel` stands for recursion deeper than the fuel.
  `printPartsT` is the same walk with a log of its steps (invocations, lines,
  assignments to `*index`), each tagged with its nesting depth.
* A `*Vertex` is the address of a `Vertex` object in a heap kept with the
  `Graph`; the maps of a graph are association lists.  `NewGraph` and the
  methods never store a nil map or a nil pointer, and the model has none; a
  missing key of `g.Vertices` reads as the nil pointer.  The order of an
  association list stands for the unspecified iteration order of the Go map.
-/

namespace Factorio

/-! ## Exact reading of `float32` -/

/-- An exactly read `float32`: a rational, an infinity (of either sign), or NaN. -/
inductive FVal where
  | num (q : ℚ)
  | inf
  | nan
  deriving DecidableEq

/-- The `*` of Go on `float32`, read exactly (IEEE 754 for the special values). -/
def fmul : FVal → FVal → FVal
  | .nan, _ => .nan
  | _, .nan => .nan
  | .num a, .num b => .num (a * b)
  | .num a, .inf => if a = 0 then .nan else .inf
  | .inf, .num b => if b = 0 then .nan else .inf
  | .inf, .inf => .inf

/-- The `/` of Go on `float32`, read exactly (IEEE 754 for the special values):
a division by zero does not fail, it yields an infinity, or NaN for `0 / 0`. -/
def fdiv : FVal → FVal → FVal
  | .nan, _ => .nan
  | _, .nan => .nan
  | .num a, .num b => if b = 0 then (if a = 0 then .nan else .inf) else .num (a / b)
  | .num _, .inf => .num 0
  | .inf, .num _ => .inf
  | .inf, .inf => .nan

/-- A value is finite when it is a number. -/
def FVal.isFinite : FVal → Bool
  | .num _ => true
  | _ => false

/-! ## Data model (`main.go`, `crafting/crafting.go`) -/

structure Furnace where
  BaseSmeltingSpeed : FVal
  BeaconModifier : FVal
  FuelConsumption : FVal
  EnergyConsumption : FVal
  PollutionProduction : FVal

structure Belt where
  Speed : FVal

structure Drill where
  MiningSpeed : FVal
  Pollution : FVal

structure SmeltingResult where
  Furnaces : FVal
  Drills : FVal
  Ore : FVal
  Belts : FVal

structure Smeltable where
  SmeltingSpeed : FVal
  MiningTime : FVal

/-- The type `crafting.Part`. -/
structure Part where
  Name : String
  Amount : FVal
  deriving DecidableEq

/-- The type `crafting.Recipe`; `Parts = none` is the `nil` slice. -/
structure Recipe where
  Parts : Option (List Part)
  OutputAmount : FVal
  CraftingTime : FVal
  deriving DecidableEq

/-- The type `map[string]crafting.Recipe`. -/
abbrev Registry := List (String × Recipe)

/-! ## Rate arithmetic -/

def FurnaceCount (smeltable : Smeltable) (furnace : Furnace) (desired : FVal) : FVal :=
  fdiv desired (fmul smeltable.SmeltingSpeed furnace.BaseSmeltingSpeed)

def DrillCount (smeltable : Smeltable) (drill : Drill) (desired : FVal) : FVal :=
  fdiv (fdiv desired drill.MiningSpeed) smeltable.MiningTime

def OreCount (smeltable : Smeltable) (drill : Drill) (desired : FVal) : FVal :=
  fmul (DrillCount smeltable drill desired) drill.MiningSpeed

def BeltCount (belt : Belt) (stackSize : FVal) (desired : FVal) : FVal :=
  fdiv (fdiv desired belt.Speed) stackSize

def FromDesired (ore : Smeltable) (drill : Drill) (furnace : Furnace) (belt : Belt)
    (stackSize : FVal) (desired : FVal) : SmeltingResult :=
  { Furnaces := FurnaceCount ore furnace desired
    Drills := DrillCount ore drill desired
    Ore := OreCount ore drill desired
    Belts := BeltCount belt stackSize desired }

def FromBuildingCount (ore : Smeltable) (drill : Drill) (furnace : Furnace) (belt : Belt)
    (stackSize : FVal) (furnaceCount : FVal) : SmeltingResult :=
  let desired :=
    fmul (fmul (fmul ore.SmeltingSpeed ore.MiningTime) furnace.BaseSmeltingSpeed) furnaceCount
  FromDesired ore drill furnace belt stackSize desired

def Mine (drill : Drill) (_ore : Smeltable) (drillCount : FVal) : FVal :=
  fmul drillCount drill.MiningSpeed

def MineDesired (drill : Drill) (ore : Smeltable) (desired : FVal) : FVal :=
  fdiv (fmul desired ore.MiningTime) drill.MiningSpeed

/-! ## Rate arithmetic with rounding -/

/-- The `*` of Go on `float32` with rounding: the exact product of two numbers
is stored as `rnd` of it (the nearest `float32`, an infinity on overflow, zero
on underflow); the special values follow IEEE 754 as in `fmul`. -/
def fmulR (rnd : ℚ → FVal) : FVal → FVal → FVal
  | .nan, _ => .nan
  | _, .nan => .nan
  | .num a, .num b => rnd (a * b)
  | .num a, .inf => if a = 0 then .nan else .inf
  | .inf, .num b => if b = 0 then .nan else .inf
  | .inf, .inf => .inf

/-- The `/` of Go on `float32` with rounding: the exact quotient of two numbers
is stored as `rnd` of it; a division by zero yields an infinity, or NaN for
`0 / 0`, and the special values follow IEEE 754 as in `fdiv`. -/
def fdivR (rnd : ℚ → FVal) : FVal → FVal → FVal
  | .nan, _ => .nan
  | _, .nan => .nan
  | .num a, .num b => if b = 0 then (if a = 0 then .nan else .inf) else rnd (a / b)
  | .num _, .inf => .num 0
  | .inf, .num _ => .inf
  | .inf, .inf => .nan

/-- The function `FurnaceCount`, with rounding. -/
def FurnaceCountR (rnd : ℚ → FVal) (smeltable : Smeltable) (furnace : Furnace)
    (desired : FVal) : FVal :=
  fdivR rnd desired (fmulR rnd smeltable.SmeltingSpeed furnace.BaseSmeltingSpeed)

/-- The function `DrillCount`, with rounding. -/
def DrillCountR (rnd : ℚ → FVal) (smeltable : Smeltable) (drill : Drill) (desired : FVal) :
    FVal :=
  fdivR rnd (fdivR rnd desired drill.MiningSpeed) smeltable.MiningTime

/-- The function `OreCount`, with rounding. -/
def OreCountR (rnd : ℚ → FVal) (smeltable : Smeltable) (drill : Drill) (desired : FVal) :
    FVal :=
  fmulR rnd (DrillCountR rnd smeltable drill desired) drill.MiningSpeed

/-- The function `BeltCount`, with rounding. -/
def BeltCountR (rnd : ℚ → FVal) (belt : Belt) (stackSize : FVal) (desired : FVal) : FVal :=
  fdivR rnd (fdivR rnd desired belt.Speed) stackSize

/-! ## The recipe-tree walk -/

/-- One line written by `printParts`: the number of tab characters produced by
`indent()` and the text and value that follow.  The `%.4f` rendering of a
value is not modelled; the line carries the value itself. -/
inductive Line where
  | craftingTime (tabs : Nat) (v : FVal)
  | outputAmount (tabs : Nat) (v : FVal)
  | part (tabs : Nat) (name : String)
  | amount (tabs : Nat) (v : FVal)
  | toCraft (tabs : Nat)
  deriving DecidableEq

/-- The shared `*index` and the lines written so far. -/
structure PrintState where
  index : Int
  out : List Line
  deriving DecidableEq

/-- How a walk ends: it returns, it panics with a message, or it needs a
recursion deeper than the fuel. -/
inductive Outcome where
  | done (s : PrintState)
  | panic (msg : String) (s : PrintState)
  | outOfFuel
  deriving DecidableEq

/-- Two's-complement wrap-around of Go's 64-bit `int`. -/
def wrapInt (x : Int) : Int := (x + 2 ^ 63) % 2 ^ 64 - 2 ^ 63

/-- The closure `indent`: `for range *index` appends one tab per iteration,
none when `*index` is not positive. -/
def indent (index : Int) : Nat := index.toNat

/-- A `fmt.Printf` call: append one line. -/
def PrintState.print (s : PrintState) (l : Line) : PrintState :=
  { s with out := s.out ++ [l] }

/-- The body of the `for _, a2 := range recipe.Parts` loop of `printParts`;
`call` is the recursive call `printParts(recipes, recipe, index)`. -/
def visitPart (call : Recipe → PrintState → Outcome) (recipes : Registry) (a2 : Part)
    (s : PrintState) : Outcome :=
  let s := s.print (.part (indent s.index) a2.Name)
  let s := s.print (.amount (indent s.index) a2.Amount)
  match recipes.lookup a2.Name with
  | none => .panic ("part doesn't exist as a recipe: " ++ a2.Name) s
  | some recipe =>
    let s :=
      if recipe.Parts = none then
        if s.index ≠ 0 then { s with index := wrapInt (s.index - 1) } else s
      else s
    if recipe.Parts ≠ none then
      let s := s.print (.toCraft (indent s.index))
      let s := { s with index := wrapInt (s.index + 1) }
      call recipe s
    else .done s

/-- The `for _, a2 := range recipe.Parts` loop of `printParts`: a panic or a
runaway recursion in one iteration ends the loop. -/
def rangeParts (call : Recipe → PrintState → Outcome) (recipes : Registry) :
    List Part → PrintState → Outcome
  | [], s => .done s
  | a2 :: rest, s =>
    match visitPart call recipes a2 s with
    | .done s => rangeParts call recipes rest s
    | o => o

/-- The function `printParts`, with recursion depth bounded by the fuel. -/
def printParts : Nat → Registry → Recipe → PrintState → Outcome
  | 0, _, _, _ => .outOfFuel
  | fuel + 1, recipes, recipe, s =>
    let s := s.print (.craftingTime (indent s.index) recipe.CraftingTime)
    let s := s.print (.outputAmount (indent s.index) recipe.OutputAmount)
    rangeParts (printParts fuel recipes) recipes (recipe.Parts.getD []) s

/-- The function `findRecipeTree`: its body is empty. -/
def findRecipeTree (_recipes : Registry) (_recipeName : String) : Unit := ()

/-! ## The walk with a log of its steps -/

/-- The number of tabs at the start of a line. -/
def Line.tabs : Line → Nat
  | .craftingTime t _ => t
  | .outputAmount t _ => t
  | .part t _ => t
  | .amount t _ => t
  | .toCraft t => t

/-- One step of a walk, tagged with the nesting depth of the invocation of
`printParts` that makes it (0 for the call made by `main`): the invocation
begins with `*index` at a value, it writes a line, or it assigns to `*index`. -/
inductive Event where
  | enter (depth : Nat) (index : Int)
  | line (depth : Nat) (l : Line)
  | set (depth : Nat) (index : Int)
  deriving DecidableEq

/-- The shared `*index` and the steps made so far. -/
structure TraceState where
  index : Int
  log : List Event
  deriving DecidableEq

/-- How a logged walk ends; the steps made so far are kept in every case. -/
inductive TraceOutcome where
  | done (s : TraceState)
  | panic (msg : String) (s : TraceState)
  | outOfFuel (s : TraceState)
  deriving DecidableEq

/-- The state in which a logged walk ends. -/
def TraceOutcome.state : TraceOutcome → TraceState
  | .done s => s
  | .panic _ s => s
  | .outOfFuel s => s

/-- A `fmt.Printf` call at a nesting depth. -/
def TraceState.print (s : TraceState) (depth : Nat) (l : Line) : TraceState :=
  { s with log := s.log ++ [.line depth l] }

/-- An assignment to `*index` at a nesting depth. -/
def TraceState.assign (s : TraceState) (depth : Nat) (v : Int) : TraceState :=
  { index := v, log := s.log ++ [.set depth v] }

/-- The loop body of `printParts` (as `visitPart`), logging its steps. -/
def visitPartT (call : Recipe → TraceState → TraceOutcome) (recipes : Registry) (depth : Nat)
    (a2 : Part) (s : TraceState) : TraceOutcome :=
  let s := s.print depth (.part (indent s.index) a2.Name)
  let s := s.print depth (.amount (indent s.index) a2.Amount)
  match recipes.lookup a2.Name with
  | none => .panic ("part doesn't exist as a recipe: " ++ a2.Name) s
  | some recipe =>
    let s :=
      if recipe.Parts = none then
        if s.index ≠ 0 then s.assign depth (wrapInt (s.index - 1)) else s
      else s
    if recipe.Parts ≠ none then
      let s := s.print depth (.toCraft (indent s.index))
      let s := s.assign depth (wrapInt (s.index + 1))
      call recipe s
    else .done s

/-- The loop of `printParts` (as `rangeParts`), logging its steps. -/
def rangePartsT (call : Recipe → TraceState → TraceOutcome) (recipes : Registry) (depth : Nat) :
    List Part → TraceState → TraceOutcome
  | [], s => .done s
  | a2 :: rest, s =>
    match visitPartT call recipes depth a2 s with
    | .done s => rangePartsT call recipes depth rest s
    | o => o

/-- The function `printParts`, logging its steps; `depth` is the nesting depth
of this invocation. -/
def printPartsT : Nat → Registry → Recipe → Nat → TraceState → TraceOutcome
  | 0, _, _, _, s => .outOfFuel s
  | fuel + 1, recipes, recipe, depth, s =>
    let s := { s with log := s.log ++ [Event.enter depth s.index] }
    let s := s.print depth (.craftingTime (indent s.index) recipe.CraftingTime)
    let s := s.print depth (.outputAmount (indent s.index) recipe.OutputAmount)
    rangePartsT (fun r t => printPartsT fuel recipes r (depth + 1) t) recipes depth
      (recipe.Parts.getD []) s

/-- The line written at a step, when the step writes one. -/
def Event.line? : Event → Option Line
  | .line _ l => some l
  | _ => none

/-- The lines of a log, in order. -/
def linesOf (log : List Event) : List Line := log.filterMap Event.line?

/-- The state of `printParts` that a logged state stands for. -/
def TraceState.erase (s : TraceState) : PrintState := ⟨s.index, linesOf s.log⟩

/-- The outcome of `printParts` that a logged outcome stands for. -/
def TraceOutcome.erase : TraceOutcome → Outcome
  | .done s => .done s.erase
  | .panic msg s => .panic msg s.erase
  | .outOfFuel _ => .outOfFuel

/-- The counter value of a step that begins an invocation or assigns to `*index`. -/
def Event.counter? : Event → Option Int
  | .enter _ c => some c
  | .set _ c => some c
  | .line _ _ => none

/-- No step of the log begins an invocation with a negative counter or
assigns a negative value to the counter. -/
def NonNegative (log : List Event) : Prop :=
  ∀ e ∈ log, ∀ c, e.counter? = some c → 0 ≤ c

/-- An invocation begins with the counter equal to its nesting depth; a line is
indented by as many tabs as the nesting depth of the invocation that writes it. -/
def Event.Aligned : Event → Prop
  | .enter d c => c = d
  | .line d l => l.tabs = d
  | .set _ _ => True

/-- Every step of the log is aligned with its nesting depth. -/
def Aligned (log : List Event) : Prop := ∀ e ∈ log, e.Aligned

/-- The invariant of the counter during a walk started at 0: it is not
negative, it is at most the number of steps made, and no step so far saw
a negative counter. -/
def CounterInv (s : TraceState) : Prop :=
  0 ≤ s.index ∧ s.index ≤ s.log.length ∧ NonNegative s.log

/-! ## The recipe graph and the shape of the output -/

/-- The edge of the recipe graph that `printParts` follows: walking `r`, a part
of `r` is found in the registry with recipe `r2`, whose parts list is not nil,
so the walk recurses into `r2`. -/
def Expands (recipes : Registry) (r r2 : Recipe) : Prop :=
  ∃ p ∈ r.Parts.getD [], recipes.lookup p.Name = some r2 ∧ r2.Parts ≠ none

/-- A cycle of the recipe graph can be reached from `root`. -/
def HasReachableCycle (recipes : Registry) (root : Recipe) : Prop :=
  ∃ c, Relation.ReflTransGen (Expands recipes) root c ∧
    Relation.TransGen (Expands recipes) c c

/-- Every part named by `root` or by a recipe of the registry is a key of the registry. -/
def Complete (recipes : Registry) (root : Recipe) : Prop :=
  (∀ p ∈ root.Parts.getD [], recipes.lookup p.Name ≠ none) ∧
  ∀ e ∈ recipes, ∀ p ∈ e.2.Parts.getD [], recipes.lookup p.Name ≠ none

/-- The registry is layered by `rank`: every part named by a recipe of the
registry has a smaller rank than the key of that recipe, and the parts of
`root` have rank below `n`.  A registry with such a rank has no cycle. -/
def Ranked (recipes : Registry) (root : Recipe) (rank : String → Nat) (n : Nat) : Prop :=
  (∀ p ∈ root.Parts.getD [], rank p.Name < n) ∧
  ∀ e ∈ recipes, ∀ p ∈ e.2.Parts.getD [], rank p.Name < rank e.1

/-- The walk ended in state `s1`: it returned, or it panicked there. -/
def Outcome.Ends (o : Outcome) (s1 : PrintState) : Prop :=
  o = .done s1 ∨ ∃ msg, o = .panic msg s1

/-- The recipes on which a walk with the given fuel returns, from some state. -/
def Returns (fuel : Nat) (recipes : Registry) (r : Recipe) : Prop :=
  ∃ s s1, printParts fuel recipes r s = .done s1

/-- A part is stored when it stands in the parts list of the root or of a
recipe of the registry. -/
def Stored (recipes : Registry) (root : Recipe) (p : Part) : Prop :=
  p ∈ root.Parts.getD [] ∨ ∃ e ∈ recipes, p ∈ e.2.Parts.getD []

/-- Lines in which every `amount` line directly follows the `part` line of a
part for which `ok` holds, with the same indentation, carrying the amount of
that part; the other lines are header lines and `to craft this part:` lines. -/
inductive Paired (ok : Part → Prop) : List Line → Prop where
  | nil : Paired ok []
  | pair (t : Nat) (p : Part) (rest : List Line) :
      ok p → Paired ok rest → Paired ok (.part t p.Name :: .amount t p.Amount :: rest)
  | craftingTime (t : Nat) (v : FVal) (rest : List Line) :
      Paired ok rest → Paired ok (.craftingTime t v :: rest)
  | outputAmount (t : Nat) (v : FVal) (rest : List Line) :
      Paired ok rest → Paired ok (.outputAmount t v :: rest)
  | toCraft (t : Nat) (rest : List Line) :
      Paired ok rest → Paired ok (.toCraft t :: rest)

/-! ## The graph -/

/-- The address of an allocated `Vertex`, the value of a `*Vertex` that is not
nil: the position of the object in the heap. -/
abbrev Addr := Nat

/-- The type `Edge`; `Vertex` is the address held by the `*Vertex` field. -/
structure Edge where
  Weight : Int
  Vertex : Addr
  deriving DecidableEq

/-- The type `Vertex`; `Edges` is the map `map[string]*Edge`. -/
structure Vertex where
  Val : String
  Edges : List (String × Edge)
  deriving DecidableEq

/-- The type `Graph`, with the `Vertex` objects allocated so far (`heap`);
`Vertices` is the map `map[string]*Vertex`. -/
structure Graph where
  heap : List Vertex
  Vertices : List (String × Addr)
  deriving DecidableEq

/-- The assignment `m[k] = v` on a Go map: the entry of `k` is replaced when
there is one, added otherwise. -/
def mapSet {β : Type} : List (String × β) → String → β → List (String × β)
  | [], k, v => [(k, v)]
  | (k2, v2) :: rest, k, v =>
    if k2 = k then (k, v) :: rest else (k2, v2) :: mapSet rest k v

/-- The method `AddVertex`: a new `Vertex` object is allocated and stored under `key`. -/
def Graph.AddVertex (g : Graph) (key val : String) : Graph :=
  { heap := g.heap ++ [⟨val, []⟩]
    Vertices := mapSet g.Vertices key g.heap.length }

/-- The method `AddEdge`. -/
def Graph.AddEdge (g : Graph) (sourceKey destinationKey : String) (weight : Int) : Graph :=
  match g.Vertices.lookup sourceKey with
  | none => g
  | some a =>
    match g.Vertices.lookup destinationKey with
    | none => g
    | some b =>
      match g.heap[a]? with
      | none => g
      | some v =>
        { g with heap := g.heap.set a { v with Edges := mapSet v.Edges destinationKey ⟨weight, b⟩ } }

/-- The loop of `Neighbors` over the edges of a vertex; `none` is a panic. -/
def neighborsLoop (heap : List Vertex) : List (String × Edge) → List String →
    Option (List String)
  | [], res => some res
  | (_, edge) :: rest, res =>
    match heap[edge.Vertex]? with
    | none => none
    | some v => neighborsLoop heap rest (res ++ [v.Val])

/-- The method `Neighbors`; `none` is the panic of a nil pointer dereference. -/
def Graph.Neighbors (g : Graph) (sourceKey : String) : Option (List String) :=
  match g.Vertices.lookup sourceKey with
  | none => none
  | some a =>
    match g.heap[a]? with
    | none => none
    | some v => neighborsLoop g.heap v.Edges []

/-- The type `GraphOption`. -/
abbrev GraphOption := Graph → Graph

/-- The inner loop of `WithAdjacencyList`, over the edge list of `vertex`. -/
def addEdges (vertex : String) : List String → Graph → Graph
  | [], g => g
  | edge :: rest, g =>
    let g := if g.Vertices.lookup edge = none then g.AddVertex edge edge else g
    addEdges vertex rest (g.AddEdge vertex edge 0)

/-- The function `WithAdjacencyList`; the entries of `list` are visited in the
order of the list, which stands for the iteration order of the Go map. -/
def WithAdjacencyList : List (String × List String) → GraphOption
  | [], g => g
  | (vertex, edges) :: rest, g =>
    let g := if g.Vertices.lookup vertex = none then g.AddVertex vertex vertex else g
    WithAdjacencyList rest (addEdges vertex edges g)

/-- The function `NewGraph`. -/
def NewGraph (opts : List GraphOption) : Graph :=
  opts.foldl (fun g opt => opt g) ⟨[], []⟩

/-- The keys of a Go map. -/
def keysOf {β : Type} (m : List (String × β)) : List String := m.map (·.1)

/-- A graph as Go can hold it: the keys of each map are distinct, distinct keys
hold distinct `Vertex` objects, and every stored address is allocated. -/
def Graph.WF (g : Graph) : Prop :=
  (keysOf g.Vertices).Nodup ∧ (g.Vertices.map (·.2)).Nodup ∧
  (∀ p ∈ g.Vertices, p.2 < g.heap.length) ∧
  ∀ v ∈ g.heap, (keysOf v.Edges).Nodup ∧ ∀ e ∈ v.Edges, e.2.Vertex < g.heap.length

/-- The graph has exactly the vertices `V` and the edges `E`: every vertex
holds its key as `Val`, and its edges have weight 0, lead to the keys `E`
relates it to, and point at the vertex stored under the key they lead to. -/
def Graph.Describes (g : Graph) (V : String → Prop) (E : String → String → Prop) : Prop :=
  g.WF ∧
  (∀ k, g.Vertices.lookup k ≠ none ↔ V k) ∧
  (∀ x y, E x y → V x) ∧
  ∀ k a, g.Vertices.lookup k = some a →
    ∃ v, g.heap[a]? = some v ∧ v.Val = k ∧
      (∀ e ∈ v.Edges, e.2.Weight = 0 ∧ g.Vertices.lookup e.1 = some e.2.Vertex) ∧
      ∀ d, d ∈ keysOf v.Edges ↔ E k d

/-! ## Example registries and graphs -/

/-- A recipe whose only part, `gear`, is looked up in an empty registry. -/
def oneMissing : Recipe := ⟨some [⟨"gear", .num 2⟩], .num 1, .num 1⟩

/-- A registry whose entry `ore` has a parts list that is empty but not nil. -/
def emptyPartsRegistry : Registry := [("ore", ⟨some [], .num 1, .num 3⟩)]

/-- A recipe whose only part is `ore`. -/
def usesOre : Recipe := ⟨some [⟨"ore", .num 4⟩], .num 1, .num 2⟩

/-- The recipe `A` of the cyclic registry: one part, `B`. -/
def recipeA : Recipe := ⟨some [⟨"B", .num 1⟩], .num 1, .num 1⟩

/-- The recipe `B` of the cyclic registry: one part, `A`. -/
def recipeB : Recipe := ⟨some [⟨"A", .num 1⟩], .num 1, .num 1⟩

/-- The registry `{A: parts=[(B,1)], output=1; B: parts=[(A,1)], output=1}`. -/
def cyclicAB : Registry := [("A", recipeA), ("B", recipeB)]

/-- The registry `{Gear: [(Iron,2)], Plate: [(Iron,1)]}`, outputs 1, with the raw item `Iron`. -/
def gearPlateRegistry : Registry :=
  [("Gear", ⟨some [⟨"Iron", .num 2⟩], .num 1, .num 1⟩),
   ("Plate", ⟨some [⟨"Iron", .num 1⟩], .num 1, .num 1⟩),
   ("Iron", ⟨none, .num 1, .num 1⟩)]

/-- A root that requires 10 of `Gear` and 5 of `Plate`. -/
def gearAndPlate : Recipe := ⟨some [⟨"Gear", .num 10⟩, ⟨"Plate", .num 5⟩], .num 1, .num 1⟩

/-- The lines written by the walk of `gearAndPlate` in `gearPlateRegistry`. -/
def gearAndPlateLines : List Line :=
  [.craftingTime 0 (.num 1), .outputAmount 0 (.num 1),
   .part 0 "Gear", .amount 0 (.num 10), .toCraft 0,
   .craftingTime 1 (.num 1), .outputAmount 1 (.num 1),
   .part 1 "Iron", .amount 1 (.num 2),
   .part 0 "Plate", .amount 0 (.num 5), .toCraft 0,
   .craftingTime 1 (.num 1), .outputAmount 1 (.num 1),
   .part 1 "Iron", .amount 1 (.num 1)]

/-- A registry with a raw item `raw`, a recipe `B` made of `raw`, a recipe `A`
made of `raw` and then `B`, and a recipe `R` made of `A`. -/
def nestedRegistry : Registry :=
  [("R", ⟨some [⟨"A", .num 1⟩], .num 1, .num 1⟩),
   ("A", ⟨some [⟨"raw", .num 1⟩, ⟨"B", .num 1⟩], .num 1, .num 2⟩),
   ("B", ⟨some [⟨"raw", .num 1⟩], .num 1, .num 3⟩),
   ("raw", ⟨none, .num 1, .num 4⟩)]

/-- The recipe `R` of `nestedRegistry`. -/
def nestedRoot : Recipe := ⟨some [⟨"A", .num 1⟩], .num 1, .num 1⟩

/-- The lines written by the walk of `nestedRoot` in `nestedRegistry`: the
header of `B` (crafting time 3), two levels below the root, has one tab. -/
def nestedLines : List Line :=
  [.craftingTime 0 (.num 1), .outputAmount 0 (.num 1),
   .part 0 "A", .amount 0 (.num 1), .toCraft 0,
   .craftingTime 1 (.num 2), .outputAmount 1 (.num 1),
   .part 1 "raw", .amount 1 (.num 1),
   .part 0 "B", .amount 0 (.num 1), .toCraft 0,
   .craftingTime 1 (.num 3), .outputAmount 1 (.num 1),
   .part 1 "raw", .amount 1 (.num 1)]

/-- A recipe made of one `Gear`, walked in `gearPlateRegistry`. -/
def usesGear : Recipe := ⟨some [⟨"Gear", .num 1⟩], .num 1, .num 1⟩

/-- The adjacency list `{a: [b, c, b], c: [a]}`. -/
def sampleList : List (String × List String) := [("a", ["b", "c", "b"]), ("c", ["a"])]

/-! ## Formulas of the specification, over exact rationals -/

/-- The formula the specification gives for `requiredBuildingCount`. -/
def requiredBuildingCount (materialRate buildingRate desiredRate : ℚ) : ℚ :=
  desiredRate / (materialRate * buildingRate)

/-- The formula the specification gives for `requiredExtractorCount`. -/
def requiredExtractorCount (materialExtractionTime extractorRate desiredRate : ℚ) : ℚ :=
  desiredRate / (extractorRate * materialExtractionTime⁻¹)

/-- The formula the specification gives for `requiredTransportUnits`. -/
def requiredTransportUnits (beltSpeed stackHeight desiredRate : ℚ) : ℚ :=
  desiredRate / (beltSpeed * stackHeight)

/-! ## Rate arithmetic: helper lemmas -/

theorem fdiv_num_of_ne (a b : ℚ) (hb : b ≠ 0) : fdiv (.num a) (.num b) = .num (a / b) := by
  simp [fdiv, hb]

theorem fmul_num (a b : ℚ) : fmul (.num a) (.num b) = .num (a * b) := rfl

theorem fdiv_zero_not_finite (x : FVal) : (fdiv x (.num 0)).isFinite = false := by
  cases x with
  | num a => by_cases ha : a = 0 <;> simp [fdiv, FVal.isFinite, ha]
  | inf => rfl
  | nan => rfl

theorem fdiv_not_finite (x y : FVal) (hx : x.isFinite = false) :
    (fdiv x y).isFinite = false := by
  cases x <;> cases y <;> simp_all [fdiv, FVal.isFinite]

theorem fmul_zero_right (x : FVal) : fmul x (.num 0) = .num 0 ∨ fmul x (.num 0) = .nan := by
  cases x <;> simp [fmul]

theorem fdivR_num_eq (x y : FVal) : fdivR FVal.num x y = fdiv x y := by
  cases x <;> cases y <;> rfl

theorem fmulR_num_eq (x y : FVal) : fmulR FVal.num x y = fmul x y := by
  cases x <;> cases y <;> rfl

theorem fdivR_zero_not_finite (rnd : ℚ → FVal) (x : FVal) :
    (fdivR rnd x (.num 0)).isFinite = false := by
  cases x with
  | num a => by_cases ha : a = 0 <;> simp [fdivR, FVal.isFinite, ha]
  | inf => rfl
  | nan => rfl

theorem fdivR_not_finite_left (rnd : ℚ → FVal) (x y : FVal) (hx : x.isFinite = false) :
    (fdivR rnd x y).isFinite = false := by
  cases x <;> cases y <;> simp_all [fdivR, FVal.isFinite]

theorem fdivR_nan_right (rnd : ℚ → FVal) (x : FVal) : fdivR rnd x .nan = .nan := by
  cases x <;> rfl

theorem fmulR_not_finite_left (rnd : ℚ → FVal) (x y : FVal) (hx : x.isFinite = false) :
    (fmulR rnd x y).isFinite = false := by
  cases x with
  | num a => simp [FVal.isFinite] at hx
  | inf =>
    cases y with
    | num b => by_cases hb : b = 0 <;> simp [fmulR, FVal.isFinite, hb]
    | inf => rfl
    | nan => rfl
  | nan => cases y <;> rfl

theorem fmulR_zero_left (rnd : ℚ → FVal) (h0 : rnd 0 = .num 0) (y : FVal) :
    fmulR rnd (.num 0) y = .num 0 ∨ fmulR rnd (.num 0) y = .nan := by
  cases y <;> simp [fmulR, h0]

theorem fmulR_zero_right (rnd : ℚ → FVal) (h0 : rnd 0 = .num 0) (x : FVal) :
    fmulR rnd x (.num 0) = .num 0 ∨ fmulR rnd x (.num 0) = .nan := by
  cases x <;> simp [fmulR, h0]

theorem fdivR_zero_or_nan_not_finite (rnd : ℚ → FVal) (x y : FVal)
    (hy : y = .num 0 ∨ y = .nan) : (fdivR rnd x y).isFinite = false := by
  rcases hy with hy | hy <;> rw [hy]
  · exact fdivR_zero_not_finite rnd x
  · rw [fdivR_nan_right]
    rfl

/-! ## The walk: helper lemmas -/

theorem visitPart_mono (call call2 : Recipe → PrintState → Outcome) (recipes : Registry)
    (hcall : ∀ r s o, call r s = o → o ≠ .outOfFuel → call2 r s = o)
    (a2 : Part) (s : PrintState) (o : Outcome)
    (h : visitPart call recipes a2 s = o) (ho : o ≠ .outOfFuel) :
    visitPart call2 recipes a2 s = o := by
  unfold visitPart at h ⊢
  cases hl : recipes.lookup a2.Name with
  | none => simpa [hl] using h
  | some r =>
    simp only [hl] at h ⊢
    by_cases hp : r.Parts = none
    · simpa [hp] using h
    · simp only [hp, if_false, ne_eq, not_false_eq_true, if_true] at h ⊢
      exact hcall _ _ _ h ho

theorem rangeParts_mono (call call2 : Recipe → PrintState → Outcome) (recipes : Registry)
    (hcall : ∀ r s o, call r s = o → o ≠ .outOfFuel → call2 r s = o)
    (ps : List Part) (s : PrintState) (o : Outcome)
    (h : rangeParts call recipes ps s = o) (ho : o ≠ .outOfFuel) :
    rangeParts call2 recipes ps s = o := by
  induction ps generalizing s with
  | nil => simpa [rangeParts] using h
  | cons a2 rest ih =>
    simp only [rangeParts] at h ⊢
    cases hv : visitPart call recipes a2 s with
    | done s1 =>
      rw [hv] at h
      rw [visitPart_mono call call2 recipes hcall a2 s _ hv (by simp)]
      exact ih s1 h
    | panic msg s1 =>
      rw [hv] at h
      rw [visitPart_mono call call2 recipes hcall a2 s _ hv (by simp)]
      exact h
    | outOfFuel =>
      rw [hv] at h
      exact absurd h.symm ho

theorem printParts_succ (fuel : Nat) (recipes : Registry) (recipe : Recipe) (s : PrintState)
    (o : Outcome) (h : printParts fuel recipes recipe s = o) (ho : o ≠ .outOfFuel) :
    printParts (fuel + 1) recipes recipe s = o := by
  induction fuel generalizing recipe s o with
  | zero => exact absurd h.symm ho
  | succ n ih =>
    rw [printParts] at h ⊢
    exact rangeParts_mono _ _ recipes (fun r s o => ih r s o) _ _ _ h ho

theorem printParts_mono (fuel fuel2 : Nat) (hle : fuel ≤ fuel2) (recipes : Registry)
    (recipe : Recipe) (s : PrintState) (o : Outcome)
    (h : printParts fuel recipes recipe s = o) (ho : o ≠ .outOfFuel) :
    printParts fuel2 recipes recipe s = o := by
  induction hle with
  | refl => exact h
  | step _ ih => exact printParts_succ _ recipes recipe s o ih ho

theorem rangeParts_append (call : Recipe → PrintState → Outcome) (recipes : Registry)
    (pre rest : List Part) (s s1 : PrintState)
    (h : rangeParts call recipes pre s = .done s1) :
    rangeParts call recipes (pre ++ rest) s = rangeParts call recipes rest s1 := by
  induction pre generalizing s with
  | nil =>
    simp only [rangeParts, Outcome.done.injEq] at h
    simp [h]
  | cons a2 tl ih =>
    simp only [rangeParts, List.cons_append] at h ⊢
    cases hv : visitPart call recipes a2 s with
    | done s2 =>
      rw [hv] at h
      exact ih s2 h
    | panic msg s2 => rw [hv] at h; cases h
    | outOfFuel => rw [hv] at h; cases h

theorem lookup_eq_none_of_not_key (recipes : Registry) (name : String)
    (h : ∀ r, (name, r) ∉ recipes) : recipes.lookup name = none := by
  rw [List.lookup_eq_none_iff]
  intro p hp
  simp only [bne_iff_ne, ne_eq]
  intro hk
  exact h p.2 (by rw [hk]; exact hp)

theorem mem_of_lookup (recipes : Registry) (k : String) (r : Recipe)
    (h : recipes.lookup k = some r) : (k, r) ∈ recipes := by
  obtain ⟨l1, l2, hl, _⟩ := List.lookup_eq_some_iff.mp h
  rw [hl]
  simp

theorem visitPart_done_call (call : Recipe → PrintState → Outcome) (recipes : Registry)
    (a2 : Part) (s s1 : PrintState) (r2 : Recipe)
    (h : visitPart call recipes a2 s = .done s1)
    (hl : recipes.lookup a2.Name = some r2) (hp : r2.Parts ≠ none) :
    ∃ t, call r2 t = .done s1 := by
  simp only [visitPart, hl, hp, if_false, ne_eq, not_false_eq_true, if_true] at h
  exact ⟨_, h⟩

theorem rangeParts_done_call (call : Recipe → PrintState → Outcome) (recipes : Registry)
    (ps : List Part) (s s1 : PrintState) (h : rangeParts call recipes ps s = .done s1)
    (p : Part) (hmem : p ∈ ps) (r2 : Recipe)
    (hl : recipes.lookup p.Name = some r2) (hp : r2.Parts ≠ none) :
    ∃ t t1, call r2 t = .done t1 := by
  induction ps generalizing s with
  | nil => cases hmem
  | cons a2 rest ih =>
    simp only [rangeParts] at h
    cases hv : visitPart call recipes a2 s with
    | done s2 =>
      rw [hv] at h
      rcases List.mem_cons.mp hmem with rfl | hin
      · obtain ⟨t, ht⟩ := visitPart_done_call call recipes p s s2 r2 hv hl hp
        exact ⟨t, s2, ht⟩
      · exact ih s2 h hin
    | panic msg s2 => rw [hv] at h; cases h
    | outOfFuel => rw [hv] at h; cases h

theorem Returns_step (fuel : Nat) (recipes : Registry) (r r2 : Recipe)
    (h : Returns (fuel + 1) recipes r) (he : Expands recipes r r2) :
    Returns fuel recipes r2 := by
  obtain ⟨s, s1, hs⟩ := h
  obtain ⟨p, hmem, hl, hp⟩ := he
  rw [printParts] at hs
  exact rangeParts_done_call _ recipes _ _ s1 hs p hmem r2 hl hp

theorem Returns_succ (fuel : Nat) (recipes : Registry) (r : Recipe)
    (h : Returns fuel recipes r) : Returns (fuel + 1) recipes r := by
  obtain ⟨s, s1, hs⟩ := h
  exact ⟨s, s1, printParts_succ fuel recipes r s _ hs (by simp)⟩

theorem Returns_expands (fuel : Nat) (recipes : Registry) (r r2 : Recipe)
    (h : Returns fuel recipes r) (he : Expands recipes r r2) : Returns fuel recipes r2 := by
  cases fuel with
  | zero =>
    obtain ⟨s, s1, hs⟩ := h
    simp [printParts] at hs
  | succ n => exact Returns_succ n recipes r2 (Returns_step n recipes r r2 h he)

theorem Returns_reach (fuel : Nat) (recipes : Registry) (r r2 : Recipe)
    (h : Returns fuel recipes r) (he : Relation.ReflTransGen (Expands recipes) r r2) :
    Returns fuel recipes r2 := by
  induction he with
  | refl => exact h
  | tail _ hstep ih => exact Returns_expands fuel recipes _ _ ih hstep

theorem not_Returns_of_cycle (fuel : Nat) (recipes : Registry) (c : Recipe)
    (hc : Relation.TransGen (Expands recipes) c c) : ¬ Returns fuel recipes c := by
  induction fuel with
  | zero =>
    rintro ⟨s, s1, hs⟩
    simp [printParts] at hs
  | succ n ih =>
    intro h
    obtain ⟨d, hcd, hdc⟩ := Relation.TransGen.head'_iff.mp hc
    exact ih (Returns_reach n recipes d c (Returns_step n recipes c d h hcd) hdc)

theorem visitPart_no_panic (call : Recipe → PrintState → Outcome) (recipes : Registry)
    (hcall : ∀ k r, recipes.lookup k = some r → ∀ s msg s1, call r s ≠ .panic msg s1)
    (a2 : Part) (hk : recipes.lookup a2.Name ≠ none) (s : PrintState) (msg : String)
    (s1 : PrintState) : visitPart call recipes a2 s ≠ .panic msg s1 := by
  cases hl : recipes.lookup a2.Name with
  | none => exact absurd hl hk
  | some r =>
    by_cases hp : r.Parts = none
    · simp [visitPart, hl, hp]
    · simp only [visitPart, hl, hp, if_false, ne_eq, not_false_eq_true, if_true]
      exact hcall _ r hl _ _ _

theorem rangeParts_no_panic (call : Recipe → PrintState → Outcome) (recipes : Registry)
    (hcall : ∀ k r, recipes.lookup k = some r → ∀ s msg s1, call r s ≠ .panic msg s1)
    (ps : List Part) (hk : ∀ p ∈ ps, recipes.lookup p.Name ≠ none) (s : PrintState)
    (msg : String) (s1 : PrintState) : rangeParts call recipes ps s ≠ .panic msg s1 := by
  induction ps generalizing s with
  | nil => simp [rangeParts]
  | cons a2 rest ih =>
    simp only [rangeParts]
    cases hv : visitPart call recipes a2 s with
    | done s2 => exact ih (fun p hp => hk p (List.mem_cons_of_mem _ hp)) s2
    | panic m s2 =>
      exact absurd hv (visitPart_no_panic call recipes hcall a2
        (hk a2 (List.mem_cons_self _ _)) s m s2)
    | outOfFuel => simp

theorem printParts_no_panic (fuel : Nat) (recipes : Registry)
    (hreg : ∀ k r, recipes.lookup k = some r →
      ∀ p ∈ r.Parts.getD [], recipes.lookup p.Name ≠ none)
    (r : Recipe) (hr : ∀ p ∈ r.Parts.getD [], recipes.lookup p.Name ≠ none)
    (s : PrintState) (msg : String) (s1 : PrintState) :
    printParts fuel recipes r s ≠ .panic msg s1 := by
  induction fuel generalizing r s msg s1 with
  | zero => simp [printParts]
  | succ n ih =>
    rw [printParts]
    exact rangeParts_no_panic _ recipes (fun k r2 hl => ih r2 (hreg k r2 hl)) _ hr _ _ _

theorem printParts_outOfFuel_of_cycle (recipes : Registry) (root : Recipe)
    (hc : HasReachableCycle recipes root) (hk : Complete recipes root) (fuel : Nat)
    (s : PrintState) : printParts fuel recipes root s = .outOfFuel := by
  obtain ⟨c, hreach, hcyc⟩ := hc
  cases h : printParts fuel recipes root s with
  | done s1 =>
    exact absurd (Returns_reach fuel recipes root c ⟨s, s1, h⟩ hreach)
      (not_Returns_of_cycle fuel recipes c hcyc)
  | panic msg s1 =>
    exact absurd h (printParts_no_panic fuel recipes
      (fun k r hl => hk.2 (k, r) (mem_of_lookup recipes k r hl)) root hk.1 s msg s1)
  | outOfFuel => rfl

theorem Expands_cyclicAB : Expands cyclicAB recipeA recipeB ∧ Expands cyclicAB recipeB recipeA :=
  ⟨⟨⟨"B", .num 1⟩, by simp [recipeA], by decide, by simp [recipeB]⟩,
    ⟨⟨"A", .num 1⟩, by simp [recipeB], by decide, by simp [recipeA]⟩⟩

theorem HasReachableCycle_cyclicAB : HasReachableCycle cyclicAB recipeA :=
  ⟨recipeA, Relation.ReflTransGen.refl,
    Relation.TransGen.tail (Relation.TransGen.single Expands_cyclicAB.1) Expands_cyclicAB.2⟩

theorem Complete_cyclicAB : Complete cyclicAB recipeA := by
  unfold Complete
  decide

theorem Paired_append (ok : Part → Prop) (a b : List Line) (ha : Paired ok a)
    (hb : Paired ok b) : Paired ok (a ++ b) := by
  induction ha with
  | nil => exact hb
  | pair t p rest hp _ ih => exact Paired.pair t p _ hp ih
  | craftingTime t v rest _ ih => exact Paired.craftingTime t v _ ih
  | outputAmount t v rest _ ih => exact Paired.outputAmount t v _ ih
  | toCraft t rest _ ih => exact Paired.toCraft t _ ih

theorem Paired_amount_mem (ok : Part → Prop) (l : List Line) (h : Paired ok l) (t : Nat)
    (v : FVal) (hmem : Line.amount t v ∈ l) : ∃ p, ok p ∧ p.Amount = v := by
  induction h with
  | nil => cases hmem
  | pair t2 p rest hp _ ih =>
    simp only [List.mem_cons, reduceCtorEq, false_or, Line.amount.injEq] at hmem
    rcases hmem with ⟨_, rfl⟩ | hin
    · exact ⟨p, hp, rfl⟩
    · exact ih hin
  | craftingTime t2 v2 rest _ ih =>
    simp only [List.mem_cons, reduceCtorEq, false_or] at hmem
    exact ih hmem
  | outputAmount t2 v2 rest _ ih =>
    simp only [List.mem_cons, reduceCtorEq, false_or] at hmem
    exact ih hmem
  | toCraft t2 rest _ ih =>
    simp only [List.mem_cons, reduceCtorEq, false_or] at hmem
    exact ih hmem

theorem visitPart_paired (ok : Part → Prop) (call : Recipe → PrintState → Outcome)
    (recipes : Registry)
    (hcall : ∀ k r s s1, recipes.lookup k = some r → (call r s).Ends s1 →
      ∃ new, s1.out = s.out ++ new ∧ Paired ok new)
    (a2 : Part) (ha : ok a2) (s s1 : PrintState)
    (h : (visitPart call recipes a2 s).Ends s1) :
    ∃ new, s1.out = s.out ++ new ∧ Paired ok new := by
  unfold visitPart at h
  cases hl : recipes.lookup a2.Name with
  | none =>
    simp only [hl, Outcome.Ends, reduceCtorEq, Outcome.panic.injEq, false_or] at h
    obtain ⟨_, _, hs⟩ := h
    refine ⟨[.part (indent s.index) a2.Name, .amount (indent s.index) a2.Amount], ?_,
      Paired.pair _ a2 _ ha Paired.nil⟩
    rw [← hs]
    simp [PrintState.print]
  | some r =>
    simp only [hl] at h
    by_cases hp : r.Parts = none
    · simp only [hp, if_true, ne_eq, not_true_eq_false, if_false, Outcome.Ends,
        Outcome.done.injEq, reduceCtorEq, exists_false, or_false] at h
      refine ⟨[.part (indent s.index) a2.Name, .amount (indent s.index) a2.Amount], ?_,
        Paired.pair _ a2 _ ha Paired.nil⟩
      rw [← h]
      split <;> simp [PrintState.print]
    · simp only [hp, if_false, ne_eq, not_false_eq_true, if_true] at h
      obtain ⟨new, hnew, hpaired⟩ := hcall _ r _ s1 hl h
      refine ⟨.part (indent s.index) a2.Name :: .amount (indent s.index) a2.Amount ::
        .toCraft (indent s.index) :: new, ?_,
        Paired.pair _ a2 _ ha (Paired.toCraft _ _ hpaired)⟩
      rw [hnew]
      simp [PrintState.print]

theorem rangeParts_paired (ok : Part → Prop) (call : Recipe → PrintState → Outcome)
    (recipes : Registry)
    (hcall : ∀ k r s s1, recipes.lookup k = some r → (call r s).Ends s1 →
      ∃ new, s1.out = s.out ++ new ∧ Paired ok new)
    (ps : List Part) (hps : ∀ p ∈ ps, ok p) (s s1 : PrintState)
    (h : (rangeParts call recipes ps s).Ends s1) :
    ∃ new, s1.out = s.out ++ new ∧ Paired ok new := by
  induction ps generalizing s with
  | nil =>
    simp only [rangeParts, Outcome.Ends, Outcome.done.injEq, reduceCtorEq, exists_false,
      or_false] at h
    exact ⟨[], by simp [h], Paired.nil⟩
  | cons a2 rest ih =>
    simp only [rangeParts] at h
    cases hv : visitPart call recipes a2 s with
    | done s2 =>
      rw [hv] at h
      obtain ⟨n1, h1, p1⟩ := visitPart_paired ok call recipes hcall a2
        (hps a2 (List.mem_cons_self _ _)) s s2 (by rw [hv]; exact Or.inl rfl)
      obtain ⟨n2, h2, p2⟩ := ih (fun p hp => hps p (List.mem_cons_of_mem _ hp)) s2 h
      exact ⟨n1 ++ n2, by rw [h2, h1, List.append_assoc], Paired_append ok n1 n2 p1 p2⟩
    | panic msg s2 =>
      rw [hv] at h
      exact visitPart_paired ok call recipes hcall a2 (hps a2 (List.mem_cons_self _ _)) s s1
        (by rw [hv]; exact h)
    | outOfFuel =>
      rw [hv] at h
      simp [Outcome.Ends] at h

theorem printParts_paired (ok : Part → Prop) (recipes : Registry)
    (hreg : ∀ k r, recipes.lookup k = some r → ∀ p ∈ r.Parts.getD [], ok p)
    (fuel : Nat) (r : Recipe) (hr : ∀ p ∈ r.Parts.getD [], ok p) (s s1 : PrintState)
    (h : (printParts fuel recipes r s).Ends s1) :
    ∃ new, s1.out = s.out ++ new ∧ Paired ok new := by
  induction fuel generalizing r s s1 with
  | zero => simp [printParts, Outcome.Ends] at h
  | succ n ih =>
    rw [printParts] at h
    obtain ⟨new, hnew, hpaired⟩ := rangeParts_paired ok _ recipes
      (fun k r2 t t1 hl hc => ih r2 (hreg k r2 hl) t t1 hc) _ hr _ s1 h
    refine ⟨.craftingTime (indent s.index) r.CraftingTime ::
      .outputAmount (indent s.index) r.OutputAmount :: new, ?_,
      Paired.craftingTime _ _ _ (Paired.outputAmount _ _ _ hpaired)⟩
    rw [hnew]
    simp [PrintState.print]

theorem visitPart_returns (call : Recipe → PrintState → Outcome) (recipes : Registry)
    (a2 : Part) (hk : recipes.lookup a2.Name ≠ none)
    (hcall : ∀ r, recipes.lookup a2.Name = some r → ∀ s, ∃ s1, call r s = .done s1)
    (s : PrintState) : ∃ s1, visitPart call recipes a2 s = .done s1 := by
  cases hl : recipes.lookup a2.Name with
  | none => exact absurd hl hk
  | some r =>
    by_cases hp : r.Parts = none
    · simp [visitPart, hl, hp]
    · simp only [visitPart, hl, hp, if_false, ne_eq, not_false_eq_true, if_true]
      exact hcall r hl _

theorem rangeParts_returns (call : Recipe → PrintState → Outcome) (recipes : Registry)
    (ps : List Part) (hk : ∀ p ∈ ps, recipes.lookup p.Name ≠ none)
    (hcall : ∀ p ∈ ps, ∀ r, recipes.lookup p.Name = some r → ∀ s, ∃ s1, call r s = .done s1)
    (s : PrintState) : ∃ s1, rangeParts call recipes ps s = .done s1 := by
  induction ps generalizing s with
  | nil => exact ⟨s, rfl⟩
  | cons a2 rest ih =>
    obtain ⟨s2, h2⟩ := visitPart_returns call recipes a2 (hk a2 (List.mem_cons_self _ _))
      (hcall a2 (List.mem_cons_self _ _)) s
    simp only [rangeParts, h2]
    exact ih (fun p hp => hk p (List.mem_cons_of_mem _ hp))
      (fun p hp => hcall p (List.mem_cons_of_mem _ hp)) s2

theorem printParts_returns (recipes : Registry) (rank : String → Nat)
    (hreg : ∀ e ∈ recipes, ∀ p ∈ e.2.Parts.getD [],
      recipes.lookup p.Name ≠ none ∧ rank p.Name < rank e.1)
    (n : Nat) (r : Recipe)
    (hr : ∀ p ∈ r.Parts.getD [], recipes.lookup p.Name ≠ none ∧ rank p.Name < n)
    (s : PrintState) : ∃ s1, printParts (n + 1) recipes r s = .done s1 := by
  induction n generalizing r s with
  | zero =>
    have hnil : r.Parts.getD [] = [] := by
      cases hps : r.Parts.getD [] with
      | nil => rfl
      | cons p tl =>
        have := hr p (by rw [hps]; exact List.mem_cons_self _ _)
        omega
    rw [printParts, hnil]
    exact ⟨_, rfl⟩
  | succ m ih =>
    rw [printParts]
    refine rangeParts_returns _ recipes _ (fun p hp => (hr p hp).1) ?_ _
    intro p hp r2 hl t
    refine ih r2 ?_ t
    intro q hq
    have h1 := hreg (p.Name, r2) (mem_of_lookup recipes p.Name r2 hl) q hq
    have h2 := (hr p hp).2
    have h3 : rank q.Name < rank p.Name := h1.2
    exact ⟨h1.1, by omega⟩

/-! ## The logged walk: helper lemmas -/

theorem linesOf_append (a b : List Event) : linesOf (a ++ b) = linesOf a ++ linesOf b := by
  simp [linesOf, List.filterMap_append]

theorem visitPartT_erase (call : Recipe → PrintState → Outcome)
    (callT : Recipe → TraceState → TraceOutcome) (recipes : Registry) (depth : Nat)
    (hcall : ∀ r t, (callT r t).erase = call r t.erase) (a2 : Part) (s : TraceState) :
    (visitPartT callT recipes depth a2 s).erase = visitPart call recipes a2 s.erase := by
  unfold visitPartT visitPart
  cases hl : recipes.lookup a2.Name with
  | none =>
    simp [TraceOutcome.erase, TraceState.erase, TraceState.print, PrintState.print,
      linesOf_append, linesOf, Event.line?]
  | some r =>
    by_cases hp : r.Parts = none
    · by_cases h0 : s.index = 0 <;>
        simp [hp, h0, TraceOutcome.erase, TraceState.erase, TraceState.print,
          TraceState.assign, PrintState.print, linesOf_append, linesOf, Event.line?]
    · simp only [hp, if_false, ne_eq, not_false_eq_true, if_true]
      rw [hcall]
      simp [TraceState.erase, TraceState.print, TraceState.assign, PrintState.print,
        linesOf_append, linesOf, Event.line?]

theorem rangePartsT_erase (call : Recipe → PrintState → Outcome)
    (callT : Recipe → TraceState → TraceOutcome) (recipes : Registry) (depth : Nat)
    (hcall : ∀ r t, (callT r t).erase = call r t.erase) (ps : List Part) (s : TraceState) :
    (rangePartsT callT recipes depth ps s).erase = rangeParts call recipes ps s.erase := by
  induction ps generalizing s with
  | nil => rfl
  | cons a2 rest ih =>
    have hv := visitPartT_erase call callT recipes depth hcall a2 s
    simp only [rangePartsT, rangeParts]
    cases h : visitPartT callT recipes depth a2 s with
    | done s2 =>
      rw [h] at hv
      simp only [TraceOutcome.erase] at hv
      rw [← hv]
      exact ih s2
    | panic msg s2 =>
      rw [h] at hv
      simp only [TraceOutcome.erase] at hv
      rw [← hv]
      rfl
    | outOfFuel s2 =>
      rw [h] at hv
      simp only [TraceOutcome.erase] at hv
      rw [← hv]
      rfl

theorem printPartsT_erase (fuel : Nat) (recipes : Registry) (recipe : Recipe) (depth : Nat)
    (s : TraceState) :
    (printPartsT fuel recipes recipe depth s).erase = printParts fuel recipes recipe s.erase := by
  induction fuel generalizing recipe depth s with
  | zero => rfl
  | succ n ih =>
    rw [printPartsT, printParts]
    rw [rangePartsT_erase (printParts n recipes) _ recipes depth (fun r t => ih r (depth + 1) t)]
    simp [TraceState.erase, TraceState.print, PrintState.print, linesOf_append, linesOf, Event.line?]

theorem wrapInt_of_range (x : Int) (h1 : -(2 ^ 63) ≤ x) (h2 : x < 2 ^ 63) : wrapInt x = x := by
  unfold wrapInt
  norm_num at h1 h2 ⊢
  omega

theorem NonNegative_append (a b : List Event) (ha : NonNegative a) (hb : NonNegative b) :
    NonNegative (a ++ b) := by
  intro e he c hc
  rcases List.mem_append.mp he with h | h
  · exact ha e h c hc
  · exact hb e h c hc

theorem NonNegative_lines (d1 d2 : Nat) (l1 l2 : Line) :
    NonNegative [.line d1 l1, .line d2 l2] := by
  intro e he c hc
  simp only [List.mem_cons, List.mem_singleton, List.not_mem_nil, or_false] at he
  rcases he with rfl | rfl <;> simp [Event.counter?] at hc

theorem CounterInv_print (s : TraceState) (d : Nat) (l : Line) (h : CounterInv s) :
    CounterInv (s.print d l) := by
  obtain ⟨h0, h1, h2⟩ := h
  refine ⟨h0, ?_, ?_⟩
  · simp only [TraceState.print, List.length_append, List.length_singleton]
    push_cast
    omega
  · refine NonNegative_append _ _ h2 ?_
    intro e he c hc
    simp only [List.mem_singleton] at he
    subst he
    simp [Event.counter?] at hc

theorem CounterInv_assign (s : TraceState) (d : Nat) (v : Int) (h : CounterInv s)
    (hv0 : 0 ≤ v) (hv1 : v ≤ s.index + 1) : CounterInv (s.assign d v) := by
  obtain ⟨_, h1, h2⟩ := h
  refine ⟨hv0, ?_, ?_⟩
  · simp only [TraceState.assign, List.length_append, List.length_singleton]
    push_cast
    omega
  · refine NonNegative_append _ _ h2 ?_
    intro e he c hc
    simp only [List.mem_singleton] at he
    subst he
    simp only [Event.counter?, Option.some.injEq] at hc
    omega

theorem visitPartT_counter (call : Recipe → TraceState → TraceOutcome) (recipes : Registry)
    (depth : Nat)
    (hcall : ∀ r t, t.log.length ≤ (call r t).state.log.length ∧
      (CounterInv t → (call r t).state.log.length < 2 ^ 63 → CounterInv (call r t).state))
    (a2 : Part) (s : TraceState) :
    s.log.length ≤ (visitPartT call recipes depth a2 s).state.log.length ∧
    (CounterInv s → (visitPartT call recipes depth a2 s).state.log.length < 2 ^ 63 →
      CounterInv (visitPartT call recipes depth a2 s).state) := by
  unfold visitPartT
  cases hl : recipes.lookup a2.Name with
  | none =>
    refine ⟨by simp [TraceOutcome.state, TraceState.print], fun hs _ => ?_⟩
    exact CounterInv_print _ _ _ (CounterInv_print _ _ _ hs)
  | some r =>
    by_cases hp : r.Parts = none
    · by_cases h0 : s.index = 0
      · refine ⟨by simp [hp, h0, TraceOutcome.state, TraceState.print], fun hs _ => ?_⟩
        simp only [hp, if_true, TraceState.print, h0, ne_eq, not_true_eq_false, if_false,
          TraceOutcome.state]
        have := CounterInv_print _ depth (.amount (indent s.index) a2.Amount)
          (CounterInv_print _ depth (.part (indent s.index) a2.Name) hs)
        simpa [TraceState.print, h0] using this
      · refine ⟨by simp [hp, h0, TraceOutcome.state, TraceState.print, TraceState.assign],
          fun hs hlen => ?_⟩
        simp only [hp, if_true, TraceState.print, h0, ne_eq, not_false_eq_true,
          not_true_eq_false, if_false, TraceOutcome.state] at hlen ⊢
        have h2 := CounterInv_print _ depth (.amount (indent s.index) a2.Amount)
          (CounterInv_print _ depth (.part (indent s.index) a2.Name) hs)
        have hidx : 0 ≤ s.index := hs.1
        have hle : s.index ≤ s.log.length := hs.2.1
        simp only [TraceState.assign, List.length_append, List.length_singleton] at hlen
        have hw : wrapInt (s.index - 1) = s.index - 1 := by
          apply wrapInt_of_range
          · norm_num; omega
          · have : (s.log.length : Int) < 2 ^ 63 := by
              have : s.log.length < 2 ^ 63 := by omega
              exact_mod_cast this
            omega
        rw [hw]
        exact CounterInv_assign _ depth _ h2 (by omega)
          (by simp only [TraceState.print]; omega)
    · simp only [hp, if_false, ne_eq, not_false_eq_true, if_true]
      have hc := hcall r (((s.print depth (.part (indent s.index) a2.Name)).print depth
        (.amount (indent s.index) a2.Amount)).print depth (.toCraft (indent s.index)) |>.assign
        depth (wrapInt (s.index + 1)))
      simp only [TraceState.print, TraceState.assign, List.length_append,
        List.length_singleton] at hc ⊢
      refine ⟨by omega, fun hs hlen => ?_⟩
      refine hc.2 ?_ hlen
      have hidx : 0 ≤ s.index := hs.1
      have hle : s.index ≤ s.log.length := hs.2.1
      have hw : wrapInt (s.index + 1) = s.index + 1 := by
        apply wrapInt_of_range
        · norm_num; omega
        · have : (s.log.length : Int) + 4 < 2 ^ 63 := by
            have : s.log.length + 4 < 2 ^ 63 := by omega
            exact_mod_cast this
          omega
      rw [hw]
      have h3 := CounterInv_print _ depth (.toCraft (indent s.index))
        (CounterInv_print _ depth (.amount (indent s.index) a2.Amount)
          (CounterInv_print _ depth (.part (indent s.index) a2.Name) hs))
      have := CounterInv_assign _ depth (s.index + 1) h3 (by omega)
        (by simp only [TraceState.print]; omega)
      simpa [TraceState.print, TraceState.assign] using this

theorem rangePartsT_counter (call : Recipe → TraceState → TraceOutcome) (recipes : Registry)
    (depth : Nat)
    (hcall : ∀ r t, t.log.length ≤ (call r t).state.log.length ∧
      (CounterInv t → (call r t).state.log.length < 2 ^ 63 → CounterInv (call r t).state))
    (ps : List Part) (s : TraceState) :
    s.log.length ≤ (rangePartsT call recipes depth ps s).state.log.length ∧
    (CounterInv s → (rangePartsT call recipes depth ps s).state.log.length < 2 ^ 63 →
      CounterInv (rangePartsT call recipes depth ps s).state) := by
  induction ps generalizing s with
  | nil => exact ⟨le_refl _, fun hs _ => hs⟩
  | cons a2 rest ih =>
    have hv := visitPartT_counter call recipes depth hcall a2 s
    simp only [rangePartsT]
    cases h : visitPartT call recipes depth a2 s with
    | done s2 =>
      rw [h] at hv
      simp only [TraceOutcome.state] at hv
      have hr := ih s2
      refine ⟨le_trans hv.1 hr.1, fun hs hlen => ?_⟩
      exact hr.2 (hv.2 hs (lt_of_le_of_lt hr.1 hlen)) hlen
    | panic msg s2 =>
      rw [h] at hv
      exact hv
    | outOfFuel s2 =>
      rw [h] at hv
      exact hv

theorem printPartsT_counter (fuel : Nat) (recipes : Registry) (recipe : Recipe) (depth : Nat)
    (s : TraceState) :
    s.log.length ≤ (printPartsT fuel recipes recipe depth s).state.log.length ∧
    (CounterInv s → (printPartsT fuel recipes recipe depth s).state.log.length < 2 ^ 63 →
      CounterInv (printPartsT fuel recipes recipe depth s).state) := by
  induction fuel generalizing recipe depth s with
  | zero => exact ⟨le_refl _, fun hs _ => hs⟩
  | succ n ih =>
    rw [printPartsT]
    have hr := rangePartsT_counter (fun r t => printPartsT n recipes r (depth + 1) t) recipes
      depth (fun r t => ih r (depth + 1) t) (recipe.Parts.getD [])
      ((({ s with log := s.log ++ [Event.enter depth s.index] } : TraceState).print depth
        (.craftingTime (indent s.index) recipe.CraftingTime)).print depth
        (.outputAmount (indent s.index) recipe.OutputAmount))
    refine ⟨le_trans ?_ hr.1, fun hs hlen => hr.2 ?_ hlen⟩
    · simp [TraceState.print]
    · refine CounterInv_print _ _ _ (CounterInv_print _ _ _ ?_)
      obtain ⟨h0, h1, h2⟩ := hs
      refine ⟨h0, ?_, ?_⟩
      · simp only [List.length_append, List.length_singleton]
        push_cast
        omega
      · refine NonNegative_append _ _ h2 ?_
        intro e he c hc
        simp only [List.mem_singleton] at he
        subst he
        simp only [Event.counter?, Option.some.injEq] at hc
        omega

theorem visitPart_expanded (call : Recipe → PrintState → Outcome) (recipes : Registry)
    (a2 : Part) (recipe : Recipe) (s : PrintState)
    (hl : recipes.lookup a2.Name = some recipe) (hp : recipe.Parts ≠ none) :
    visitPart call recipes a2 s =
      call recipe ⟨wrapInt (s.index + 1),
        s.out ++ [.part (indent s.index) a2.Name, .amount (indent s.index) a2.Amount,
          .toCraft (indent s.index)]⟩ := by
  simp [visitPart, hl, hp, PrintState.print]

theorem Aligned_append (a b : List Event) (ha : Aligned a) (hb : Aligned b) :
    Aligned (a ++ b) := by
  intro e he
  rcases List.mem_append.mp he with h | h
  · exact ha e h
  · exact hb e h

theorem Aligned_print (s : TraceState) (d : Nat) (l : Line) (h : Aligned s.log)
    (hl : l.tabs = d) : Aligned (s.print d l).log := by
  refine Aligned_append _ _ h ?_
  intro e he
  simp only [List.mem_singleton] at he
  subst he
  exact hl

theorem Aligned_assign (s : TraceState) (d : Nat) (v : Int) (h : Aligned s.log) :
    Aligned (s.assign d v).log := by
  refine Aligned_append _ _ h ?_
  intro e he
  simp only [List.mem_singleton] at he
  subst he
  trivial

theorem indent_natCast (d : Nat) : indent (d : Int) = d := by
  simp [indent]

theorem visitPartT_aligned (call : Recipe → TraceState → TraceOutcome) (recipes : Registry)
    (depth : Nat) (a2 : Part) (s : TraceState)
    (hcall : ∀ r t, recipes.lookup a2.Name = some r → t.index = ((depth + 1 : Nat) : Int) →
      Aligned t.log → Aligned (call r t).state.log)
    (hs : s.index = (depth : Int)) (hb : (depth : Int) + 1 < 2 ^ 63) (hA : Aligned s.log) :
    Aligned (visitPartT call recipes depth a2 s).state.log := by
  have h2 : Aligned ((s.print depth (.part (indent s.index) a2.Name)).print depth
      (.amount (indent s.index) a2.Amount)).log :=
    Aligned_print _ _ _ (Aligned_print _ _ _ hA (by rw [hs, indent_natCast]; rfl))
      (by rw [hs, indent_natCast]; rfl)
  unfold visitPartT
  cases hl : recipes.lookup a2.Name with
  | none => exact h2
  | some r =>
    by_cases hp : r.Parts = none
    · by_cases h0 : s.index = 0
      · simpa [hp, h0, TraceOutcome.state, TraceState.print] using h2
      · simp only [hp, if_true, TraceState.print, h0, ne_eq, not_false_eq_true,
          not_true_eq_false, if_false, TraceOutcome.state]
        exact Aligned_assign _ _ _ h2
    · simp only [hp, if_false, ne_eq, not_false_eq_true, if_true]
      refine hcall r _ hl ?_ ?_
      · simp only [TraceState.assign, TraceState.print]
        rw [hs, wrapInt_of_range _ (by norm_num; omega) hb]
        push_cast
        rfl
      · refine Aligned_assign _ _ _ (Aligned_print _ _ _ h2 ?_)
        simp only [TraceState.print]
        rw [hs, indent_natCast]
        rfl

theorem rangePartsT_single_state (call : Recipe → TraceState → TraceOutcome)
    (recipes : Registry) (depth : Nat) (p : Part) (s : TraceState) :
    (rangePartsT call recipes depth [p] s).state = (visitPartT call recipes depth p s).state := by
  simp only [rangePartsT]
  cases visitPartT call recipes depth p s <;> rfl

theorem printPartsT_aligned (recipes : Registry)
    (hreg : ∀ e ∈ recipes, (e.2.Parts.getD []).length ≤ 1) (fuel : Nat) (recipe : Recipe)
    (hrec : (recipe.Parts.getD []).length ≤ 1) (depth : Nat) (s : TraceState)
    (hs : s.index = (depth : Int)) (hb : depth + fuel < 2 ^ 63) (hA : Aligned s.log) :
    Aligned (printPartsT fuel recipes recipe depth s).state.log := by
  induction fuel generalizing recipe depth s with
  | zero => exact hA
  | succ n ih =>
    rw [printPartsT]
    have h3 : Aligned ((({ s with log := s.log ++ [Event.enter depth s.index] } :
        TraceState).print depth (.craftingTime (indent s.index) recipe.CraftingTime)).print depth
        (.outputAmount (indent s.index) recipe.OutputAmount)).log := by
      refine Aligned_print _ _ _ (Aligned_print _ _ _ (Aligned_append _ _ hA ?_) ?_) ?_
      · intro e he
        simp only [List.mem_singleton] at he
        subst he
        exact hs
      · rw [hs, indent_natCast]; rfl
      · rw [hs, indent_natCast]; rfl
    match hps : recipe.Parts.getD [] with
    | [] => exact h3
    | [p] =>
      have hv := visitPartT_aligned (fun r t => printPartsT n recipes r (depth + 1) t) recipes
        depth p _
        (fun r t hl ht hAt => ih r (hreg (p.Name, r) (mem_of_lookup recipes p.Name r hl))
          (depth + 1) t ht (by omega) hAt)
        (show (((({ s with log := s.log ++ [Event.enter depth s.index] } :
          TraceState).print depth (.craftingTime (indent s.index) recipe.CraftingTime)).print
          depth (.outputAmount (indent s.index) recipe.OutputAmount))).index = (depth : Int)
          from hs)
        (by have : (depth : Int) + (n + 1 : Nat) < 2 ^ 63 := by exact_mod_cast hb
            push_cast at this
            omega) h3
      rw [rangePartsT_single_state]
      exact hv
    | p :: q :: rest =>
      rw [hps] at hrec
      simp at hrec

/-! ## The graph: helper lemmas -/

theorem lookup_cons_eq {β : Type} (k2 k3 : String) (v3 : β) (rest : List (String × β)) :
    ((k3, v3) :: rest).lookup k2 = if k2 = k3 then some v3 else rest.lookup k2 := by
  by_cases h : k2 = k3
  · subst h
    simp
  · have hb : (k2 == k3) = false := by simpa using h
    simp [List.lookup_cons, hb, h]

theorem lookup_mapSet {β : Type} (m : List (String × β)) (k : String) (v : β) (k2 : String) :
    (mapSet m k v).lookup k2 = if k2 = k then some v else m.lookup k2 := by
  induction m with
  | nil => simp [mapSet, lookup_cons_eq]
  | cons p rest ih =>
    obtain ⟨k3, v3⟩ := p
    by_cases h3 : k3 = k
    · subst h3
      simp only [mapSet, if_true, lookup_cons_eq]
      split <;> rfl
    · simp only [mapSet, h3, if_false, lookup_cons_eq, ih]
      by_cases h : k2 = k
      · subst h
        have : ¬ k2 = k3 := fun h' => h3 h'.symm
        simp [this]
      · simp [h]

theorem mem_mapSet {β : Type} (m : List (String × β)) (k : String) (v : β) (p : String × β)
    (h : p ∈ mapSet m k v) : p = (k, v) ∨ p ∈ m := by
  induction m with
  | nil => simpa [mapSet] using h
  | cons q rest ih =>
    obtain ⟨k3, v3⟩ := q
    by_cases h3 : k3 = k
    · simp only [mapSet, h3, if_true, List.mem_cons] at h
      rcases h with h | h
      · exact Or.inl h
      · exact Or.inr (List.mem_cons_of_mem _ h)
    · simp only [mapSet, h3, if_false, List.mem_cons] at h
      rcases h with h | h
      · exact Or.inr (by rw [h]; exact List.mem_cons_self _ _)
      · rcases ih h with h | h
        · exact Or.inl h
        · exact Or.inr (List.mem_cons_of_mem _ h)

theorem mem_keysOf_mapSet {β : Type} (m : List (String × β)) (k : String) (v : β) (x : String) :
    x ∈ keysOf (mapSet m k v) ↔ x = k ∨ x ∈ keysOf m := by
  induction m with
  | nil => simp [mapSet, keysOf]
  | cons q rest ih =>
    obtain ⟨k3, v3⟩ := q
    by_cases h3 : k3 = k
    · subst h3
      simp [mapSet, keysOf]
    · simp only [keysOf] at ih
      simp only [mapSet, h3, if_false, keysOf, List.map_cons, List.mem_cons, ih]
      tauto

theorem nodup_keysOf_mapSet {β : Type} (m : List (String × β)) (k : String) (v : β)
    (h : (keysOf m).Nodup) : (keysOf (mapSet m k v)).Nodup := by
  induction m with
  | nil => simp [mapSet, keysOf]
  | cons q rest ih =>
    obtain ⟨k3, v3⟩ := q
    simp only [keysOf, List.map_cons, List.nodup_cons] at h
    by_cases h3 : k3 = k
    · subst h3
      simpa [mapSet, keysOf] using h
    · simp only [mapSet, h3, if_false, keysOf, List.map_cons, List.nodup_cons]
      refine ⟨fun hm => ?_, ih h.2⟩
      rcases (mem_keysOf_mapSet rest k v k3).mp hm with h4 | h4
      · exact h3 h4
      · exact h.1 h4

theorem nodup_values_mapSet {β : Type} (m : List (String × β)) (k : String) (v : β)
    (h : (m.map (·.2)).Nodup) (hv : v ∉ m.map (·.2)) : ((mapSet m k v).map (·.2)).Nodup := by
  induction m with
  | nil => simp [mapSet]
  | cons q rest ih =>
    obtain ⟨k3, v3⟩ := q
    simp only [List.map_cons, List.nodup_cons, List.mem_cons, not_or] at h hv
    by_cases h3 : k3 = k
    · simp only [mapSet, h3, if_true, List.map_cons, List.nodup_cons]
      exact ⟨hv.2, h.2⟩
    · simp only [mapSet, h3, if_false, List.map_cons, List.nodup_cons]
      refine ⟨fun hm => ?_, ih h.2 hv.2⟩
      obtain ⟨p, hp, hp2⟩ := List.mem_map.mp hm
      rcases mem_mapSet rest k v p hp with h4 | h4
      · rw [h4] at hp2
        exact hv.1 hp2
      · exact h.1 (List.mem_map.mpr ⟨p, h4, hp2⟩)

theorem mem_of_lookup_eq_some {β : Type} (m : List (String × β)) (k : String) (v : β)
    (h : m.lookup k = some v) : (k, v) ∈ m := by
  obtain ⟨l1, l2, hl, _⟩ := List.lookup_eq_some_iff.mp h
  rw [hl]
  simp

theorem lookup_eq_none_iff_not_key {β : Type} (m : List (String × β)) (k : String) :
    m.lookup k = none ↔ k ∉ keysOf m := by
  rw [List.lookup_eq_none_iff]
  simp only [keysOf, List.mem_map, not_exists, not_and, bne_iff_ne, ne_eq]
  constructor
  · intro h p hp hk
    exact h p hp hk.symm
  · intro h p hp hk
    exact h p hp hk.symm

theorem lookup_of_mem_nodup {β : Type} (m : List (String × β)) (k : String) (v : β)
    (hn : (keysOf m).Nodup) (h : (k, v) ∈ m) : m.lookup k = some v := by
  induction m with
  | nil => cases h
  | cons q rest ih =>
    obtain ⟨k3, v3⟩ := q
    simp only [keysOf, List.map_cons, List.nodup_cons] at hn
    rcases List.mem_cons.mp h with h1 | h1
    · cases h1
      simp [lookup_cons_eq]
    · have hne : k ≠ k3 := by
        intro hk
        subst hk
        exact hn.1 (List.mem_map.mpr ⟨(k, v), h1, rfl⟩)
      simp only [lookup_cons_eq, hne, if_false]
      exact ih hn.2 h1

theorem WF_empty : (⟨[], []⟩ : Graph).WF := by
  unfold Graph.WF
  decide

theorem WF_vertex (g : Graph) (h : g.WF) (k : String) (a : Addr)
    (hl : g.Vertices.lookup k = some a) : ∃ v, g.heap[a]? = some v := by
  have hlt : a < g.heap.length := h.2.2.1 (k, a) (mem_of_lookup_eq_some _ k a hl)
  exact ⟨g.heap[a], List.getElem?_eq_getElem hlt⟩

theorem AddVertex_WF (g : Graph) (h : g.WF) (key val : String) : (g.AddVertex key val).WF := by
  obtain ⟨h1, h2, h3, h4⟩ := h
  refine ⟨nodup_keysOf_mapSet _ _ _ h1, nodup_values_mapSet _ _ _ h2 ?_, ?_, ?_⟩
  · intro hm
    obtain ⟨p, hp, hp2⟩ := List.mem_map.mp hm
    have h5 : p.2 < g.heap.length := h3 p hp
    have h6 : p.2 = g.heap.length := hp2
    exact absurd h6 (Nat.ne_of_lt h5)
  · intro p hp
    have hlen : (g.AddVertex key val).heap.length = g.heap.length + 1 := by
      simp [Graph.AddVertex]
    rw [hlen]
    rcases mem_mapSet _ _ _ p hp with h5 | h5
    · rw [h5]
      exact Nat.lt_succ_self _
    · exact Nat.lt_succ_of_lt (h3 p h5)
  · intro v hv
    have hlen : (g.AddVertex key val).heap.length = g.heap.length + 1 := by
      simp [Graph.AddVertex]
    rw [hlen]
    simp only [Graph.AddVertex, List.mem_append, List.mem_singleton] at hv
    rcases hv with hv | hv
    · exact ⟨(h4 v hv).1, fun e he => Nat.lt_succ_of_lt ((h4 v hv).2 e he)⟩
    · subst hv
      exact ⟨by simp [keysOf], fun e he => by cases he⟩

theorem AddEdge_eq (g : Graph) (src dst : String) (w : Int) (a b : Addr) (v : Vertex)
    (hs : g.Vertices.lookup src = some a) (hd : g.Vertices.lookup dst = some b)
    (hv : g.heap[a]? = some v) :
    g.AddEdge src dst w =
      { g with heap := g.heap.set a { v with Edges := mapSet v.Edges dst ⟨w, b⟩ } } := by
  simp [Graph.AddEdge, hs, hd, hv]

theorem AddEdge_WF (g : Graph) (h : g.WF) (src dst : String) (w : Int) :
    (g.AddEdge src dst w).WF := by
  cases hs : g.Vertices.lookup src with
  | none => simpa [Graph.AddEdge, hs] using h
  | some a =>
    cases hd : g.Vertices.lookup dst with
    | none => simpa [Graph.AddEdge, hs, hd] using h
    | some b =>
      obtain ⟨v, hv⟩ := WF_vertex g h src a hs
      rw [AddEdge_eq g src dst w a b v hs hd hv]
      obtain ⟨h1, h2, h3, h4⟩ := h
      refine ⟨h1, h2, ?_, ?_⟩
      · intro p hp
        simpa using h3 p hp
      · intro u hu
        simp only [List.length_set]
        rcases List.mem_or_eq_of_mem_set hu with hu | hu
        · exact h4 u hu
        · subst hu
          have hvm : v ∈ g.heap := List.getElem?_mem hv
          refine ⟨nodup_keysOf_mapSet _ _ _ (h4 v hvm).1, fun e he => ?_⟩
          rcases mem_mapSet _ _ _ e he with h5 | h5
          · rw [h5]
            exact h3 (dst, b) (mem_of_lookup_eq_some _ dst b hd)
          · exact (h4 v hvm).2 e h5

theorem addEdges_WF (vertex : String) (edges : List String) (g : Graph) (h : g.WF) :
    (addEdges vertex edges g).WF := by
  induction edges generalizing g with
  | nil => exact h
  | cons e rest ih =>
    simp only [addEdges]
    apply ih
    apply AddEdge_WF
    split
    · exact AddVertex_WF g h e e
    · exact h

theorem WithAdjacencyList_WF (list : List (String × List String)) (g : Graph) (h : g.WF) :
    (WithAdjacencyList list g).WF := by
  induction list generalizing g with
  | nil => exact h
  | cons p rest ih =>
    obtain ⟨vertex, edges⟩ := p
    simp only [WithAdjacencyList]
    apply ih
    apply addEdges_WF
    split
    · exact AddVertex_WF g h vertex vertex
    · exact h

theorem neighborsLoop_spec (heap : List Vertex) (edges : List (String × Edge))
    (res : List String) (h : ∀ e ∈ edges, e.2.Vertex < heap.length) :
    ∃ ns, neighborsLoop heap edges res = some (res ++ ns) ∧
      List.Forall₂ (fun e n => ∃ u, heap[e.2.Vertex]? = some u ∧ u.Val = n) edges ns := by
  induction edges generalizing res with
  | nil => exact ⟨[], by simp [neighborsLoop], List.Forall₂.nil⟩
  | cons e rest ih =>
    obtain ⟨d, edge⟩ := e
    have hlt : edge.Vertex < heap.length := h (d, edge) (List.mem_cons_self _ _)
    have hu : heap[edge.Vertex]? = some heap[edge.Vertex] := List.getElem?_eq_getElem hlt
    obtain ⟨ns, hns, hf⟩ := ih (res ++ [heap[edge.Vertex].Val])
      (fun e he => h e (List.mem_cons_of_mem _ he))
    refine ⟨heap[edge.Vertex].Val :: ns, ?_, List.Forall₂.cons ⟨_, hu, rfl⟩ hf⟩
    simp only [neighborsLoop, hu, hns]
    simp

theorem Describes_congr (g : Graph) (V V2 : String → Prop) (E E2 : String → String → Prop)
    (hV : ∀ x, V x ↔ V2 x) (hE : ∀ x y, E x y ↔ E2 x y) (h : g.Describes V E) :
    g.Describes V2 E2 := by
  obtain ⟨h1, h2, h3, h4⟩ := h
  refine ⟨h1, fun k => (h2 k).trans (hV k), fun x y hxy => (hV x).mp (h3 x y ((hE x y).mpr hxy)),
    fun k a hk => ?_⟩
  obtain ⟨v, hv, hval, he, hd⟩ := h4 k a hk
  exact ⟨v, hv, hval, he, fun d => (hd d).trans (hE k d)⟩

theorem Describes_empty : (⟨[], []⟩ : Graph).Describes (fun _ => False) (fun _ _ => False) := by
  refine ⟨WF_empty, fun k => by simp, fun x y h => h, fun k a hk => ?_⟩
  simp at hk

theorem Describes_AddVertex (g : Graph) (V : String → Prop) (E : String → String → Prop)
    (h : g.Describes V E) (k : String) (hk : g.Vertices.lookup k = none) :
    (g.AddVertex k k).Describes (fun x => x = k ∨ V x) E := by
  obtain ⟨h1, h2, h3, h4⟩ := h
  have hlook : ∀ k2, (g.AddVertex k k).Vertices.lookup k2 =
      if k2 = k then some g.heap.length else g.Vertices.lookup k2 :=
    fun k2 => lookup_mapSet _ _ _ _
  refine ⟨AddVertex_WF g h1 k k, fun k2 => ?_, fun x y hxy => Or.inr (h3 x y hxy),
    fun k2 a hk2 => ?_⟩
  · rw [hlook]
    by_cases hkk : k2 = k
    · simp [hkk]
    · simp only [hkk, if_false, false_or]
      exact h2 k2
  · rw [hlook] at hk2
    by_cases hkk : k2 = k
    · subst hkk
      simp only [if_true, Option.some.injEq] at hk2
      subst hk2
      refine ⟨⟨k2, []⟩, by simp [Graph.AddVertex], rfl, (fun e he => by cases he), fun d => ?_⟩
      simp only [keysOf, List.map_nil, List.not_mem_nil, false_iff]
      intro hE
      exact (h2 k2).mpr (h3 k2 d hE) hk
    · simp only [hkk, if_false] at hk2
      obtain ⟨v, hv, hval, he, hd⟩ := h4 k2 a hk2
      have hlt : a < g.heap.length := h1.2.2.1 (k2, a) (mem_of_lookup_eq_some _ k2 a hk2)
      refine ⟨v, ?_, hval, fun e hem => ?_, hd⟩
      · simp only [Graph.AddVertex]
        rw [List.getElem?_append_left hlt]
        exact hv
      · refine ⟨(he e hem).1, ?_⟩
        rw [hlook]
        have hne : e.1 ≠ k := by
          intro hek
          have := (he e hem).2
          rw [hek, hk] at this
          cases this
        simp only [hne, if_false]
        exact (he e hem).2

theorem Describes_AddEdge (g : Graph) (V : String → Prop) (E : String → String → Prop)
    (h : g.Describes V E) (s d : String) (hs : V s) (hd : V d) :
    (g.AddEdge s d 0).Describes V (fun x y => (x = s ∧ y = d) ∨ E x y) := by
  obtain ⟨h1, h2, h3, h4⟩ := h
  obtain ⟨a, ha⟩ := Option.ne_none_iff_exists'.mp ((h2 s).mpr hs)
  obtain ⟨b, hb⟩ := Option.ne_none_iff_exists'.mp ((h2 d).mpr hd)
  obtain ⟨v, hv, hval, he, hkeys⟩ := h4 s a ha
  have hlt : a < g.heap.length := h1.2.2.1 (s, a) (mem_of_lookup_eq_some _ s a ha)
  have hwf := AddEdge_WF g h1 s d 0
  rw [AddEdge_eq g s d 0 a b v ha hb hv] at hwf ⊢
  refine ⟨hwf, h2, ?_, fun k a2 hk => ?_⟩
  · rintro x y (⟨hx, _⟩ | hxy)
    · rw [hx]; exact hs
    · exact h3 x y hxy
  · obtain ⟨u, hu, huval, hue, hukeys⟩ := h4 k a2 hk
    by_cases haa : a2 = a
    · subst haa
      have huv : u = v := by
        rw [hv] at hu
        exact (Option.some.inj hu).symm
      subst huv
      have hks : k = s := by rw [← huval, hval]
      subst hks
      refine ⟨{ u with Edges := mapSet u.Edges d ⟨0, b⟩ }, ?_, huval, fun e hem => ?_,
        fun d2 => ?_⟩
      · simp [List.getElem?_set, hlt]
      · rcases mem_mapSet _ _ _ e hem with h5 | h5
        · rw [h5]
          exact ⟨rfl, hb⟩
        · exact hue e h5
      · rw [mem_keysOf_mapSet, hukeys d2]
        simp
    · refine ⟨u, ?_, huval, hue, fun d2 => ?_⟩
      · simp only
        rw [List.getElem?_set_ne (fun h' => haa h'.symm)]
        exact hu
      · rw [hukeys d2]
        constructor
        · intro hE
          exact Or.inr hE
        · rintro (⟨hks, _⟩ | hE)
          · subst hks
            rw [ha] at hk
            exact absurd (Option.some.inj hk).symm haa
          · exact hE

theorem Describes_addEdges (vertex : String) (edges : List String) (g : Graph)
    (V : String → Prop) (E : String → String → Prop) (h : g.Describes V E) (hv : V vertex) :
    (addEdges vertex edges g).Describes (fun x => x ∈ edges ∨ V x)
      (fun x y => (x = vertex ∧ y ∈ edges) ∨ E x y) := by
  induction edges generalizing g V E with
  | nil =>
    exact Describes_congr g V _ E _ (fun x => by simp) (fun x y => by simp) h
  | cons e rest ih =>
    simp only [addEdges]
    have h1 : (if g.Vertices.lookup e = none then g.AddVertex e e else g).Describes
        (fun x => x = e ∨ V x) E := by
      split
      · next hn => exact Describes_AddVertex g V E h e hn
      · next hn =>
        refine Describes_congr g V _ E _ (fun x => ?_) (fun x y => Iff.rfl) h
        constructor
        · exact Or.inr
        · rintro (hx | hx)
          · rw [hx]; exact (h.2.1 e).mp hn
          · exact hx
    have h2 := Describes_AddEdge _ _ _ h1 vertex e (Or.inr hv) (Or.inl rfl)
    have h3 := ih _ _ _ h2 (Or.inr hv)
    refine Describes_congr _ _ _ _ _ (fun x => ?_) (fun x y => ?_) h3
    · simp only [List.mem_cons]
      tauto
    · simp only [List.mem_cons]
      tauto

theorem Describes_WithAdjacencyList (list : List (String × List String)) (g : Graph)
    (V : String → Prop) (E : String → String → Prop) (h : g.Describes V E) :
    (WithAdjacencyList list g).Describes
      (fun x => (∃ p ∈ list, x = p.1 ∨ x ∈ p.2) ∨ V x)
      (fun x y => (∃ p ∈ list, x = p.1 ∧ y ∈ p.2) ∨ E x y) := by
  induction list generalizing g V E with
  | nil =>
    exact Describes_congr g V _ E _ (fun x => by simp) (fun x y => by simp) h
  | cons p rest ih =>
    obtain ⟨vertex, edges⟩ := p
    simp only [WithAdjacencyList]
    have h1 : (if g.Vertices.lookup vertex = none then g.AddVertex vertex vertex
        else g).Describes (fun x => x = vertex ∨ V x) E := by
      split
      · next hn => exact Describes_AddVertex g V E h vertex hn
      · next hn =>
        refine Describes_congr g V _ E _ (fun x => ?_) (fun x y => Iff.rfl) h
        constructor
        · exact Or.inr
        · rintro (hx | hx)
          · rw [hx]; exact (h.2.1 vertex).mp hn
          · exact hx
    have h2 := Describes_addEdges vertex edges _ _ _ h1 (Or.inl rfl)
    have h3 := ih _ _ _ h2
    refine Describes_congr _ _ _ _ _ (fun x => ?_) (fun x y => ?_) h3
    · constructor
      · rintro (⟨p, hp, hq⟩ | hx | hx | hx)
        · exact Or.inl ⟨p, List.mem_cons_of_mem _ hp, hq⟩
        · exact Or.inl ⟨(vertex, edges), List.mem_cons_self _ _, Or.inr hx⟩
        · exact Or.inl ⟨(vertex, edges), List.mem_cons_self _ _, Or.inl hx⟩
        · exact Or.inr hx
      · rintro (⟨p, hp, hq⟩ | hx)
        · rcases List.mem_cons.mp hp with hpe | hp
          · subst hpe
            rcases hq with hq | hq
            · exact Or.inr (Or.inr (Or.inl hq))
            · exact Or.inr (Or.inl hq)
          · exact Or.inl ⟨p, hp, hq⟩
        · exact Or.inr (Or.inr (Or.inr hx))
    · constructor
      · rintro (⟨p, hp, hq⟩ | hx | hx)
        · exact Or.inl ⟨p, List.mem_cons_of_mem _ hp, hq⟩
        · exact Or.inl ⟨(vertex, edges), List.mem_cons_self _ _, hx⟩
        · exact Or.inr hx
      · rintro (⟨p, hp, hq⟩ | hx)
        · rcases List.mem_cons.mp hp with hpe | hp
          · subst hpe
            exact Or.inr (Or.inl hq)
          · exact Or.inl ⟨p, hp, hq⟩
        · exact Or.inr (Or.inr hx)

theorem neighborsLoop_keys (heap : List Vertex) (edges : List (String × Edge))
    (res : List String)
    (h : ∀ e ∈ edges, ∃ u, heap[e.2.Vertex]? = some u ∧ u.Val = e.1) :
    neighborsLoop heap edges res = some (res ++ keysOf edges) := by
  induction edges generalizing res with
  | nil => simp [neighborsLoop, keysOf]
  | cons e rest ih =>
    obtain ⟨d, edge⟩ := e
    obtain ⟨u, hu, hval⟩ := h (d, edge) (List.mem_cons_self _ _)
    simp only [neighborsLoop, hu, ih _ (fun e he => h e (List.mem_cons_of_mem _ he))]
    simp only at hval
    simp [keysOf, hval]

theorem Neighbors_of_Describes (g : Graph) (V : String → Prop) (E : String → String → Prop)
    (h : g.Describes V E) (k : String) (hk : V k) :
    ∃ ns, g.Neighbors k = some ns ∧ ns.Nodup ∧ ∀ d, d ∈ ns ↔ E k d := by
  obtain ⟨h1, h2, _, h4⟩ := h
  obtain ⟨a, ha⟩ := Option.ne_none_iff_exists'.mp ((h2 k).mpr hk)
  obtain ⟨v, hv, _, he, hd⟩ := h4 k a ha
  refine ⟨keysOf v.Edges, ?_, (h1.2.2.2 v (List.getElem?_mem hv)).1, hd⟩
  have := neighborsLoop_keys g.heap v.Edges [] (fun e hem => by
    obtain ⟨u, hu, huval, _⟩ := h4 e.1 e.2.Vertex (he e hem).2
    exact ⟨u, hu, huval⟩)
  simpa [Graph.Neighbors, ha, hv] using this

theorem NewGraph_Describes (list : List (String × List String)) :
    (NewGraph [WithAdjacencyList list]).Describes
      (fun x => x ∈ keysOf list ∨ ∃ p ∈ list, x ∈ p.2)
      (fun x y => ∃ p ∈ list, p.1 = x ∧ y ∈ p.2) := by
  have h := Describes_WithAdjacencyList list _ _ _ Describes_empty
  refine Describes_congr _ _ _ _ _ (fun x => ?_) (fun x y => ?_) h
  · simp only [or_false, keysOf, List.mem_map]
    constructor
    · rintro ⟨p, hp, hq | hq⟩
      · exact Or.inl ⟨p, hp, hq.symm⟩
      · exact Or.inr ⟨p, hp, hq⟩
    · rintro (⟨p, hp, hq⟩ | ⟨p, hp, hq⟩)
      · exact ⟨p, hp, Or.inl hq.symm⟩
      · exact ⟨p, hp, Or.inr hq⟩
  · simp only [or_false]
    constructor
    · rintro ⟨p, hp, hq, hr⟩
      exact ⟨p, hp, hq.symm, hr⟩
    · rintro ⟨p, hp, hq, hr⟩
      exact ⟨p, hp, hq.symm, hr⟩

/-! ## Rate arithmetic: the claims -/

/-- C3, as stated, fails: with a zero belt speed or a zero furnace speed the
functions return a value (an infinity), and with a negative belt speed
`BeltCount` returns an ordinary negative count; no error is signalled. -/
theorem zero_rate_returns_a_value :
    BeltCount ⟨.num 0⟩ (.num 1) (.num 1) = .inf ∧
    FurnaceCount ⟨.num 1, .num 1⟩ ⟨.num 0, .num 0, .num 0, .num 0, .num 0⟩ (.num 1) = .inf ∧
    BeltCount ⟨.num (-1)⟩ (.num 1) (.num 1) = .num (-1) := by
  refine ⟨by decide, ?_, ?_⟩
  · simp [FurnaceCount, fdiv, fmul]
  · norm_num [BeltCount, fdiv]

/-- C3, amended: whatever the rounding of `float32` (`rnd`, which keeps 0),
each rate-arithmetic function returns a value that is not finite (an infinity
or NaN), and no error, when a rate or the stack size it uses is zero:
`BeltCount` at a zero belt speed or stack size, `FurnaceCount` at a zero
smelting or furnace speed, `DrillCount` and `OreCount` at a zero mining speed
or mining time, for all other arguments.  A negative rate is not rejected
either: `BeltCount` at speed -1, stack size 1 and desired rate 1 returns -1.
With exact arithmetic as the rounding these are the functions of the exact
reading. -/
theorem zero_rate_yields_non_finite (rnd : ℚ → FVal) (h0 : rnd 0 = .num 0)
    (smeltable : Smeltable) (drill : Drill) (furnace : Furnace) (belt : Belt)
    (stackSize desired : FVal) :
    ((belt.Speed = .num 0 ∨ stackSize = .num 0) →
      (BeltCountR rnd belt stackSize desired).isFinite = false) ∧
    ((smeltable.SmeltingSpeed = .num 0 ∨ furnace.BaseSmeltingSpeed = .num 0) →
      (FurnaceCountR rnd smeltable furnace desired).isFinite = false) ∧
    ((drill.MiningSpeed = .num 0 ∨ smeltable.MiningTime = .num 0) →
      (DrillCountR rnd smeltable drill desired).isFinite = false ∧
      (OreCountR rnd smeltable drill desired).isFinite = false) ∧
    (rnd (-1) = .num (-1) → BeltCountR rnd ⟨.num (-1)⟩ (.num 1) (.num 1) = .num (-1)) ∧
    (BeltCountR FVal.num belt stackSize desired = BeltCount belt stackSize desired ∧
      FurnaceCountR FVal.num smeltable furnace desired = FurnaceCount smeltable furnace desired ∧
      DrillCountR FVal.num smeltable drill desired = DrillCount smeltable drill desired ∧
      OreCountR FVal.num smeltable drill desired = OreCount smeltable drill desired) := by
  have hdrill : (drill.MiningSpeed = .num 0 ∨ smeltable.MiningTime = .num 0) →
      (DrillCountR rnd smeltable drill desired).isFinite = false := by
    rintro (h | h)
    · unfold DrillCountR
      rw [h]
      exact fdivR_not_finite_left rnd _ _ (fdivR_zero_not_finite rnd _)
    · unfold DrillCountR
      rw [h]
      exact fdivR_zero_not_finite rnd _
  refine ⟨?_, ?_, fun h => ⟨hdrill h, ?_⟩, ?_, ?_⟩
  · rintro (h | h)
    · unfold BeltCountR
      rw [h]
      exact fdivR_not_finite_left rnd _ _ (fdivR_zero_not_finite rnd _)
    · unfold BeltCountR
      rw [h]
      exact fdivR_zero_not_finite rnd _
  · rintro (h | h)
    · unfold FurnaceCountR
      rw [h]
      exact fdivR_zero_or_nan_not_finite rnd _ _ (fmulR_zero_left rnd h0 _)
    · unfold FurnaceCountR
      rw [h]
      exact fdivR_zero_or_nan_not_finite rnd _ _ (fmulR_zero_right rnd h0 _)
  · unfold OreCountR
    exact fmulR_not_finite_left rnd _ _ (hdrill h)
  · intro h1
    have e1 : ((1 : ℚ) / -1) = -1 := by norm_num
    have e2 : ((-1 : ℚ) / 1) = -1 := by norm_num
    simp [BeltCountR, fdivR, e1, e2, h1]
  · simp [BeltCountR, FurnaceCountR, DrillCountR, OreCountR, BeltCount, FurnaceCount,
      DrillCount, OreCount, fdivR_num_eq, fmulR_num_eq]

/-- Witness for C3: exact arithmetic as the rounding, a belt of speed 0 and a
furnace of speed 0. -/
theorem zero_rate_yields_non_finite_witness :
    (BeltCount ⟨.num 0⟩ (.num 1) (.num 10)).isFinite = false ∧
    (FurnaceCount ⟨.num 1, .num 1⟩ ⟨.num 0, .num 0, .num 0, .num 0, .num 0⟩
      (.num 10)).isFinite = false ∧
    BeltCount ⟨.num (-1)⟩ (.num 1) (.num 1) = .num (-1) :=
  let h := zero_rate_yields_non_finite FVal.num rfl ⟨.num 1, .num 1⟩ ⟨.num 1, .num 0⟩
    ⟨.num 0, .num 0, .num 0, .num 0, .num 0⟩ ⟨.num 0⟩ (.num 1) (.num 10)
  let g := zero_rate_yields_non_finite FVal.num rfl ⟨.num 1, .num 1⟩ ⟨.num 1, .num 0⟩
    ⟨.num 0, .num 0, .num 0, .num 0, .num 0⟩ ⟨.num (-1)⟩ (.num 1) (.num 1)
  ⟨h.2.2.2.2.1 ▸ h.1 (Or.inl rfl), h.2.2.2.2.2.1 ▸ h.2.1 (Or.inr rfl),
    g.2.2.2.2.1 ▸ g.2.2.2.1 rfl⟩

/-- C4 fails on the code at ore mining time 2, drill speed 1/2 and desired
rate 10: `DrillCount` returns 10, while the formula of the claim and
`MineDesired` both give 40. -/
theorem DrillCount_differs_from_MineDesired :
    DrillCount ⟨.num 1, .num 2⟩ ⟨.num (1 / 2), .num 0⟩ (.num 10) = .num 10 ∧
    MineDesired ⟨.num (1 / 2), .num 0⟩ ⟨.num 1, .num 2⟩ (.num 10) = .num 40 ∧
    fdiv (.num 10) (fmul (.num (1 / 2)) (fdiv (.num 1) (.num 2))) = .num 40 ∧
    requiredExtractorCount 2 (1 / 2) 10 = 40 := by
  refine ⟨?_, ?_, ?_, ?_⟩
  · norm_num [DrillCount, fdiv]
  · norm_num [MineDesired, fdiv, fmul]
  · norm_num [fdiv, fmul]
  · norm_num [requiredExtractorCount]

/-- C5, as stated, fails: at ore mining time 2 (all other rates 1) and desired
rate 10, `OreCount` is 5 while the furnaces consume 10. -/
theorem OreCount_differs_from_furnace_consumption :
    OreCount ⟨.num 1, .num 2⟩ ⟨.num 1, .num 0⟩ (.num 10) = .num 5 ∧
    fmul (fmul (FurnaceCount ⟨.num 1, .num 2⟩ ⟨.num 1, .num 0, .num 0, .num 0, .num 0⟩
      (.num 10)) (.num 1)) (.num 1) = .num 10 ∧
    OreCount ⟨.num 1, .num 2⟩ ⟨.num 1, .num 0⟩ (.num 10) ≠
      fmul (fmul (FurnaceCount ⟨.num 1, .num 2⟩ ⟨.num 1, .num 0, .num 0, .num 0, .num 0⟩
        (.num 10)) (.num 1)) (.num 1) := by
  have h1 : OreCount ⟨.num 1, .num 2⟩ ⟨.num 1, .num 0⟩ (.num 10) = .num 5 := by
    norm_num [OreCount, DrillCount, fdiv, fmul]
  have h2 : fmul (fmul (FurnaceCount ⟨.num 1, .num 2⟩ ⟨.num 1, .num 0, .num 0, .num 0, .num 0⟩
      (.num 10)) (.num 1)) (.num 1) = .num 10 := by
    norm_num [FurnaceCount, fdiv, fmul]
  refine ⟨h1, h2, ?_⟩
  rw [h1, h2]
  intro h
  injection h with h
  norm_num at h

/-- C5, amended: `OreCount` is `DrillCount * drill.MiningSpeed` for every
input, and for an ore with mining time 1, positive smelting, furnace and
mining speeds and every desired rate, that amount equals the amount consumed
by the required furnaces, which is the desired rate. -/
theorem OreCount_reconciles_at_unit_mining_time (ore : Smeltable) (drill : Drill)
    (furnace : Furnace) (m b v d : ℚ)
    (hm : ore.SmeltingSpeed = .num m) (ht : ore.MiningTime = .num 1)
    (hb : furnace.BaseSmeltingSpeed = .num b) (hv : drill.MiningSpeed = .num v)
    (hm0 : 0 < m) (hb0 : 0 < b) (hv0 : 0 < v) :
    OreCount ore drill (.num d) = fmul (DrillCount ore drill (.num d)) drill.MiningSpeed ∧
    OreCount ore drill (.num d) =
      fmul (fmul (FurnaceCount ore furnace (.num d)) ore.SmeltingSpeed)
        furnace.BaseSmeltingSpeed ∧
    OreCount ore drill (.num d) = .num d := by
  have e1 : OreCount ore drill (.num d) = .num d := by
    simp [OreCount, DrillCount, hm, ht, hv, fdiv, fmul, hv0.ne']
  have e2 : fmul (fmul (FurnaceCount ore furnace (.num d)) ore.SmeltingSpeed)
      furnace.BaseSmeltingSpeed = .num d := by
    simp [FurnaceCount, hm, hb, fdiv, fmul, hm0.ne', hb0.ne']
    field_simp
    ring
  exact ⟨rfl, by rw [e1, e2], e1⟩

/-- Witness for C5: unit rates and desired rate 10. -/
theorem OreCount_reconciles_at_unit_mining_time_witness :
    OreCount ⟨.num 1, .num 1⟩ ⟨.num 1, .num 0⟩ (.num 10) = .num 10 :=
  (OreCount_reconciles_at_unit_mining_time ⟨.num 1, .num 1⟩ ⟨.num 1, .num 0⟩
    ⟨.num 1, .num 0, .num 0, .num 0, .num 0⟩ 1 1 1 10 rfl rfl rfl rfl
    (by norm_num) (by norm_num) (by norm_num)).2.2

/-- C6: `FurnaceCount` is `desired / (SmeltingSpeed * BaseSmeltingSpeed)` for
every input, `FromDesired` stores that value in `Furnaces`, and for finite
rates with a non-zero product it is the quotient of the specification. -/
theorem FurnaceCount_eq_quotient (ore : Smeltable) (drill : Drill) (furnace : Furnace)
    (belt : Belt) (stackSize desired : FVal) :
    FurnaceCount ore furnace desired =
      fdiv desired (fmul ore.SmeltingSpeed furnace.BaseSmeltingSpeed) ∧
    (FromDesired ore drill furnace belt stackSize desired).Furnaces =
      fdiv desired (fmul ore.SmeltingSpeed furnace.BaseSmeltingSpeed) ∧
    (∀ m b d : ℚ, ore.SmeltingSpeed = .num m → furnace.BaseSmeltingSpeed = .num b →
      desired = .num d → m * b ≠ 0 →
      FurnaceCount ore furnace desired = .num (requiredBuildingCount m b d) ∧
      (FromDesired ore drill furnace belt stackSize desired).Furnaces =
        .num (requiredBuildingCount m b d)) := by
  refine ⟨rfl, rfl, ?_⟩
  intro m b d hm hb hd hne
  simp [FromDesired, FurnaceCount, hm, hb, hd, fdiv, fmul, requiredBuildingCount,
    mul_ne_zero_iff.mp hne]

/-- Witness for C6: smelting speed 2, furnace speed 1/2, desired rate 10. -/
theorem FurnaceCount_eq_quotient_witness :
    FurnaceCount ⟨.num 2, .num 1⟩ ⟨.num (1 / 2), .num 0, .num 0, .num 0, .num 0⟩ (.num 10) =
      .num (requiredBuildingCount 2 (1 / 2) 10) :=
  ((FurnaceCount_eq_quotient ⟨.num 2, .num 1⟩ ⟨.num 1, .num 0⟩
    ⟨.num (1 / 2), .num 0, .num 0, .num 0, .num 0⟩ ⟨.num 1⟩ (.num 1) (.num 10)).2.2
    2 (1 / 2) 10 rfl rfl rfl (by norm_num)).1

/-- C7: for a belt of positive speed and a positive stack size,
`BeltCount = desired / Speed / stackSize` equals `desired / (Speed * stackSize)`. -/
theorem BeltCount_eq_quotient (belt : Belt) (s k d : ℚ) (hs : belt.Speed = .num s)
    (hs0 : 0 < s) (hk0 : 0 < k) :
    BeltCount belt (.num k) (.num d) = .num (d / s / k) ∧
    BeltCount belt (.num k) (.num d) = .num (d / (s * k)) ∧
    BeltCount belt (.num k) (.num d) = .num (requiredTransportUnits s k d) := by
  have h : BeltCount belt (.num k) (.num d) = .num (d / s / k) := by
    simp [BeltCount, hs, fdiv, hs0.ne', hk0.ne']
  refine ⟨h, ?_, ?_⟩
  · rw [h, div_div]
  · rw [h, div_div, requiredTransportUnits]

/-- Witness for C7: belt speed 2, stack size 4, desired rate 16. -/
theorem BeltCount_eq_quotient_witness :
    BeltCount ⟨.num 2⟩ (.num 4) (.num 16) = .num (16 / (2 * 4)) :=
  (BeltCount_eq_quotient ⟨.num 2⟩ 2 4 16 rfl (by norm_num) (by norm_num)).2.1

/-- C8: for positive smelting speed `m` and furnace speed `b`, turning the
furnace count for rate `R` back into a rate and deriving the count again gives
the same count. -/
theorem FurnaceCount_round_trip (smeltable : Smeltable) (furnace : Furnace) (m b R : ℚ)
    (hm : smeltable.SmeltingSpeed = .num m) (hb : furnace.BaseSmeltingSpeed = .num b)
    (hm0 : 0 < m) (hb0 : 0 < b) :
    FurnaceCount smeltable furnace
      (fmul (fmul (FurnaceCount smeltable furnace (.num R)) smeltable.SmeltingSpeed)
        furnace.BaseSmeltingSpeed) =
      FurnaceCount smeltable furnace (.num R) := by
  simp [FurnaceCount, hm, hb, fdiv, fmul, hm0.ne', hb0.ne']
  field_simp
  ring

/-- Witness for C8: smelting speed 2, furnace speed 1/2, rate 10. -/
theorem FurnaceCount_round_trip_witness :
    FurnaceCount ⟨.num 2, .num 1⟩ ⟨.num (1 / 2), .num 0, .num 0, .num 0, .num 0⟩
      (fmul (fmul (FurnaceCount ⟨.num 2, .num 1⟩
        ⟨.num (1 / 2), .num 0, .num 0, .num 0, .num 0⟩ (.num 10)) (.num 2)) (.num (1 / 2))) =
      FurnaceCount ⟨.num 2, .num 1⟩ ⟨.num (1 / 2), .num 0, .num 0, .num 0, .num 0⟩ (.num 10) :=
  FurnaceCount_round_trip ⟨.num 2, .num 1⟩ ⟨.num (1 / 2), .num 0, .num 0, .num 0, .num 0⟩
    2 (1 / 2) 10 rfl rfl (by norm_num) (by norm_num)

/-- C12 fails on the code at ore mining time 2 (all rates 1) and furnace count
3: `FromBuildingCount` multiplies the desired rate by the mining time, so it
reports 6 furnaces, not 3. -/
theorem FromBuildingCount_reports_other_count :
    (FromBuildingCount ⟨.num 1, .num 2⟩ ⟨.num 1, .num 0⟩ ⟨.num 1, .num 0, .num 0, .num 0, .num 0⟩
      ⟨.num 1⟩ (.num 1) (.num 3)).Furnaces = .num 6 ∧
    (FromBuildingCount ⟨.num 1, .num 2⟩ ⟨.num 1, .num 0⟩ ⟨.num 1, .num 0, .num 0, .num 0, .num 0⟩
      ⟨.num 1⟩ (.num 1) (.num 3)).Furnaces ≠ .num 3 ∧
    FurnaceCount ⟨.num 1, .num 2⟩ ⟨.num 1, .num 0, .num 0, .num 0, .num 0⟩
      (fmul (fmul (.num 1) (.num 1)) (.num 3)) = .num 3 := by
  have h : (FromBuildingCount ⟨.num 1, .num 2⟩ ⟨.num 1, .num 0⟩
      ⟨.num 1, .num 0, .num 0, .num 0, .num 0⟩ ⟨.num 1⟩ (.num 1) (.num 3)).Furnaces = .num 6 := by
    norm_num [FromBuildingCount, FromDesired, FurnaceCount, fdiv, fmul]
  refine ⟨h, ?_, ?_⟩
  · rw [h]
    intro h2
    injection h2 with h2
    norm_num at h2
  · norm_num [FurnaceCount, fdiv, fmul]

/-- C14: with positive rates and stack size, each of the four fields of
`FromDesired` at the desired rate `2 * k` is twice the field at the rate `k`,
for every `k` (positive or not). -/
theorem FromDesired_doubles (ore : Smeltable) (drill : Drill) (furnace : Furnace) (belt : Belt)
    (m t b v c z k : ℚ)
    (hm : ore.SmeltingSpeed = .num m) (ht : ore.MiningTime = .num t)
    (hb : furnace.BaseSmeltingSpeed = .num b) (hv : drill.MiningSpeed = .num v)
    (hc : belt.Speed = .num c)
    (hm0 : 0 < m) (ht0 : 0 < t) (hb0 : 0 < b) (hv0 : 0 < v) (hc0 : 0 < c) (hz0 : 0 < z) :
    (FromDesired ore drill furnace belt (.num z) (.num (2 * k))).Furnaces =
      fmul (.num 2) (FromDesired ore drill furnace belt (.num z) (.num k)).Furnaces ∧
    (FromDesired ore drill furnace belt (.num z) (.num (2 * k))).Drills =
      fmul (.num 2) (FromDesired ore drill furnace belt (.num z) (.num k)).Drills ∧
    (FromDesired ore drill furnace belt (.num z) (.num (2 * k))).Ore =
      fmul (.num 2) (FromDesired ore drill furnace belt (.num z) (.num k)).Ore ∧
    (FromDesired ore drill furnace belt (.num z) (.num (2 * k))).Belts =
      fmul (.num 2) (FromDesired ore drill furnace belt (.num z) (.num k)).Belts := by
  refine ⟨?_, ?_, ?_, ?_⟩
  · simp [FromDesired, FurnaceCount, hm, hb, fdiv, fmul, hm0.ne', hb0.ne']
    ring
  · simp [FromDesired, DrillCount, ht, hv, fdiv, fmul, ht0.ne', hv0.ne']
    ring
  · simp [FromDesired, OreCount, DrillCount, ht, hv, fdiv, fmul, ht0.ne', hv0.ne']
    ring
  · simp [FromDesired, BeltCount, hc, fdiv, fmul, hc0.ne', hz0.ne']
    ring

/-- Witness for C14: all rates 2, stack size 1, desired rates 6 and 3. -/
theorem FromDesired_doubles_witness :
    (FromDesired ⟨.num 2, .num 2⟩ ⟨.num 2, .num 0⟩ ⟨.num 2, .num 0, .num 0, .num 0, .num 0⟩
      ⟨.num 2⟩ (.num 1) (.num (2 * 3))).Furnaces =
      fmul (.num 2) (FromDesired ⟨.num 2, .num 2⟩ ⟨.num 2, .num 0⟩
        ⟨.num 2, .num 0, .num 0, .num 0, .num 0⟩ ⟨.num 2⟩ (.num 1) (.num 3)).Furnaces :=
  (FromDesired_doubles ⟨.num 2, .num 2⟩ ⟨.num 2, .num 0⟩ ⟨.num 2, .num 0, .num 0, .num 0, .num 0⟩
    ⟨.num 2⟩ 2 2 2 2 2 1 3 rfl rfl rfl rfl rfl (by norm_num) (by norm_num) (by norm_num)
    (by norm_num) (by norm_num) (by norm_num)).1

/-! ## The walk: the claims -/

/-- C1: when a part of the walked recipe names an item that is not a key of
the registry, and the walk of the parts before it returns (with some fuel),
then with that fuel or more `printParts` panics with a message that ends in
the name of that part, having written only the two lines of that part. -/
theorem printParts_missing_part_panics (recipes : Registry) (recipe : Recipe)
    (pre post : List Part) (p : Part) (s s1 : PrintState) (fuel fuel2 : Nat)
    (hparts : recipe.Parts = some (pre ++ p :: post))
    (hmiss : ∀ r, (p.Name, r) ∉ recipes)
    (hpre : printParts fuel recipes { recipe with Parts := some pre } s = .done s1)
    (hfuel : fuel ≤ fuel2) :
    printParts fuel2 recipes recipe s =
      .panic ("part doesn't exist as a recipe: " ++ p.Name)
        ((s1.print (.part (indent s1.index) p.Name)).print
          (.amount (indent s1.index) p.Amount)) := by
  refine printParts_mono fuel fuel2 hfuel recipes recipe s _ ?_ (by simp)
  cases fuel with
  | zero => simp [printParts] at hpre
  | succ n =>
    rw [printParts] at hpre ⊢
    simp only [Option.getD_some] at hpre
    rw [hparts]
    simp only [Option.getD_some]
    rw [rangeParts_append _ _ _ _ _ _ hpre]
    simp [rangeParts, visitPart, lookup_eq_none_of_not_key recipes p.Name hmiss, PrintState.print]

/-- Witness for C1: the part `gear` in an empty registry. -/
theorem printParts_missing_part_panics_witness :
    printParts 1 [] oneMissing ⟨0, []⟩ =
      .panic "part doesn't exist as a recipe: gear"
        ⟨0, [.craftingTime 0 (.num 1), .outputAmount 0 (.num 1), .part 0 "gear",
          .amount 0 (.num 2)]⟩ :=
  printParts_missing_part_panics [] oneMissing [] [] ⟨"gear", .num 2⟩ ⟨0, []⟩
    ⟨0, [.craftingTime 0 (.num 1), .outputAmount 0 (.num 1)]⟩ 1 1 rfl (by simp) (by decide)
    (by decide)

/-- C9, as stated, fails: for a part whose registry recipe has a parts list that
is empty but not nil, the walk writes the `to craft this part:` line and makes
the recursive call (which writes the two header lines one level deeper); with
no recursion allowed the part cannot be completed. -/
theorem visitPart_expands_empty_parts :
    emptyPartsRegistry.lookup "ore" = some ⟨some [], .num 1, .num 3⟩ ∧
    printParts 2 emptyPartsRegistry usesOre ⟨0, []⟩ =
      .done ⟨1, [.craftingTime 0 (.num 2), .outputAmount 0 (.num 1), .part 0 "ore",
        .amount 0 (.num 4), .toCraft 0, .craftingTime 1 (.num 3), .outputAmount 1 (.num 1)]⟩ ∧
    printParts 1 emptyPartsRegistry usesOre ⟨0, []⟩ = .outOfFuel ∧
    visitPart (fun _ _ => .outOfFuel) emptyPartsRegistry ⟨"ore", .num 4⟩ ⟨0, []⟩ =
      .outOfFuel := by
  decide

/-- C9, amended: for a part whose registry recipe has a nil parts list, the loop
body never makes the recursive call (the result does not depend on `call`) and
writes no `to craft this part:` line: it writes the two lines of the part,
lowers the counter by one unless it is zero, and goes on to the next part. -/
theorem visitPart_nil_parts_not_expanded (call : Recipe → PrintState → Outcome)
    (recipes : Registry) (a2 : Part) (recipe : Recipe) (s : PrintState)
    (hl : recipes.lookup a2.Name = some recipe) (hnil : recipe.Parts = none) :
    visitPart call recipes a2 s =
      .done ⟨if s.index ≠ 0 then wrapInt (s.index - 1) else s.index,
        s.out ++ [.part (indent s.index) a2.Name, .amount (indent s.index) a2.Amount]⟩ := by
  by_cases h0 : s.index = 0 <;> simp [visitPart, hl, hnil, PrintState.print, h0]

/-- Witness for C9: the part `ore`, whose registry recipe has nil parts, visited
at counter 2 with a recursive call that would never return. -/
theorem visitPart_nil_parts_not_expanded_witness :
    visitPart (fun _ _ => .outOfFuel) [("ore", ⟨none, .num 1, .num 3⟩)] ⟨"ore", .num 4⟩
      ⟨2, []⟩ = .done ⟨1, [.part 2 "ore", .amount 2 (.num 4)]⟩ :=
  visitPart_nil_parts_not_expanded (fun _ _ => .outOfFuel) [("ore", ⟨none, .num 1, .num 3⟩)]
    ⟨"ore", .num 4⟩ ⟨none, .num 1, .num 3⟩ ⟨2, []⟩ (by decide) rfl

/-- C2, as stated, fails: on the registry `{A: [(B,1)], B: [(A,1)]}` the walk
from `A` is still recursing at every recursion bound, so it never ends with a
failure of any kind; and `findRecipeTree` returns without a failure. -/
theorem printParts_cyclicAB_recurses_without_bound :
    (∀ fuel, printParts fuel cyclicAB recipeA ⟨0, []⟩ = .outOfFuel) ∧
    findRecipeTree cyclicAB "A" = () :=
  ⟨fun fuel => printParts_outOfFuel_of_cycle cyclicAB recipeA HasReachableCycle_cyclicAB
    Complete_cyclicAB fuel ⟨0, []⟩, rfl⟩

/-- C2, amended: when a cycle of the recipe graph can be reached from the root,
the walk `printParts` never returns, whatever the recursion bound and the
starting state; and when moreover every part named in the registry or the
root is a key of the registry, the walk is still recursing at every recursion
bound (it recurses without bound and reports no failure). -/
theorem printParts_cycle_never_returns (recipes : Registry) (root : Recipe)
    (hc : HasReachableCycle recipes root) :
    (∀ fuel s s1, printParts fuel recipes root s ≠ .done s1) ∧
    (Complete recipes root → ∀ fuel s, printParts fuel recipes root s = .outOfFuel) := by
  refine ⟨?_, fun hk fuel s => printParts_outOfFuel_of_cycle recipes root hc hk fuel s⟩
  intro fuel s s1 h
  obtain ⟨c, hreach, hcyc⟩ := hc
  exact not_Returns_of_cycle fuel recipes c hcyc
    (Returns_reach fuel recipes root c ⟨s, s1, h⟩ hreach)

/-- Witness for C2: the registry `{A: [(B,1)], B: [(A,1)]}` walked from `A`. -/
theorem printParts_cycle_never_returns_witness :
    HasReachableCycle cyclicAB recipeA ∧
    ∀ fuel s, printParts fuel cyclicAB recipeA s = .outOfFuel :=
  ⟨HasReachableCycle_cyclicAB,
    (printParts_cycle_never_returns cyclicAB recipeA HasReachableCycle_cyclicAB).2
      Complete_cyclicAB⟩

/-- C10, as stated, fails: for `Gear = [(Iron,2)]`, `Plate = [(Iron,1)]` and a
root that requires 10 of `Gear` and 5 of `Plate`, the walk reports `Iron`
twice, once under each consumer, with the stored amounts 2 and 1
(`gearAndPlateLines`); no line carries the summed rate 25, and
`findRecipeTree` reports nothing. -/
theorem printParts_gearAndPlate_reports_no_sum :
    printParts 2 gearPlateRegistry gearAndPlate ⟨0, []⟩ = .done ⟨0, gearAndPlateLines⟩ ∧
    gearAndPlateLines.filter (fun l => l = .part 1 "Iron" ∨ l = .amount 1 (.num 2) ∨
      l = .amount 1 (.num 1)) =
      [.part 1 "Iron", .amount 1 (.num 2), .part 1 "Iron", .amount 1 (.num 1)] ∧
    (∀ t, Line.amount t (.num 25) ∉ gearAndPlateLines) ∧
    findRecipeTree gearPlateRegistry "Iron" = () := by
  refine ⟨by decide, by decide, ?_, rfl⟩
  intro t
  simp [gearAndPlateLines]

/-- C10, amended: in the lines written by a walk that returns or panics, every
amount line directly follows the part line of a part stored in the root recipe
or in a recipe of the registry and carries the per-batch amount stored for
that part: each consumer's occurrence of an ingredient is reported on its own,
no rate is derived and nothing is summed across consumers.  And the walk does
return when every named part is a key and the registry is layered by a rank. -/
theorem printParts_reports_stored_amounts (recipes : Registry) (root : Recipe) :
    (∀ fuel s s1, (printParts fuel recipes root s).Ends s1 →
      ∃ new, s1.out = s.out ++ new ∧ Paired (Stored recipes root) new ∧
        ∀ t v, Line.amount t v ∈ new → ∃ p, Stored recipes root p ∧ p.Amount = v) ∧
    (∀ rank n, Complete recipes root → Ranked recipes root rank n →
      ∀ s, ∃ s1, printParts (n + 1) recipes root s = .done s1) := by
  constructor
  · intro fuel s s1 h
    obtain ⟨new, hnew, hp⟩ := printParts_paired (Stored recipes root) recipes
      (fun k r hl p hp => Or.inr ⟨(k, r), mem_of_lookup recipes k r hl, hp⟩) fuel root
      (fun p hp => Or.inl hp) s s1 h
    exact ⟨new, hnew, hp, fun t v hm => Paired_amount_mem _ new hp t v hm⟩
  · intro rank n hc hr s
    exact printParts_returns recipes rank (fun e he p hp => ⟨hc.2 e he p hp, hr.2 e he p hp⟩)
      n root (fun p hp => ⟨hc.1 p hp, hr.1 p hp⟩) s

/-- Witness for C10: the walk of `gearAndPlate` in `gearPlateRegistry`, layered
with `Iron` at rank 0 and `Gear` and `Plate` at rank 1. -/
theorem printParts_reports_stored_amounts_witness :
    (∃ s1, printParts 3 gearPlateRegistry gearAndPlate ⟨0, []⟩ = .done s1) ∧
    ∃ new, gearAndPlateLines = [] ++ new ∧
      Paired (Stored gearPlateRegistry gearAndPlate) new ∧
      ∀ t v, Line.amount t v ∈ new →
        ∃ p, Stored gearPlateRegistry gearAndPlate p ∧ p.Amount = v :=
  ⟨(printParts_reports_stored_amounts gearPlateRegistry gearAndPlate).2
      (fun k => if k = "Iron" then 0 else 1) 2 (by unfold Complete; decide)
      (by unfold Ranked; decide) ⟨0, []⟩,
    (printParts_reports_stored_amounts gearPlateRegistry gearAndPlate).1 2 ⟨0, []⟩
      ⟨0, gearAndPlateLines⟩ (Or.inl (by decide))⟩

/-- C11: for a part found in the registry and visited at a counter that is not
negative (and below the largest `int`): when its recipe has a nil parts list
the loop body only lowers the counter, by exactly one unless it is zero, so
not below zero, and returns for the next sibling; when the parts list is not
nil the counter is not lowered but raised by exactly one before the recursive
call.  Consequently, in a walk started with counter 0 (of fewer than `2 ^ 63`
steps) no invocation begins with a negative counter, no assignment makes it
negative, and it is not negative at the end. -/
theorem printParts_counter_never_negative (call : Recipe → PrintState → Outcome)
    (recipes : Registry) (a2 : Part) (recipe : Recipe) (s : PrintState)
    (hl : recipes.lookup a2.Name = some recipe)
    (h0 : 0 ≤ s.index) (hmax : s.index + 1 < 2 ^ 63) :
    (recipe.Parts = none →
      visitPart call recipes a2 s =
        .done ⟨if s.index ≠ 0 then s.index - 1 else s.index,
          s.out ++ [.part (indent s.index) a2.Name, .amount (indent s.index) a2.Amount]⟩ ∧
      (0 : Int) ≤ (if s.index ≠ 0 then s.index - 1 else s.index)) ∧
    (recipe.Parts ≠ none →
      visitPart call recipes a2 s =
        call recipe ⟨s.index + 1,
          s.out ++ [.part (indent s.index) a2.Name, .amount (indent s.index) a2.Amount,
            .toCraft (indent s.index)]⟩) ∧
    (∀ fuel root depth,
      (printPartsT fuel recipes root depth ⟨0, []⟩).erase = printParts fuel recipes root ⟨0, []⟩ ∧
      ((printPartsT fuel recipes root depth ⟨0, []⟩).state.log.length < 2 ^ 63 →
        NonNegative (printPartsT fuel recipes root depth ⟨0, []⟩).state.log ∧
        0 ≤ (printPartsT fuel recipes root depth ⟨0, []⟩).state.index)) := by
  refine ⟨fun hp => ?_, fun hp => ?_, fun fuel root depth => ⟨?_, fun hlen => ?_⟩⟩
  · have hw : wrapInt (s.index - 1) = s.index - 1 :=
      wrapInt_of_range _ (by norm_num; omega) (by omega)
    constructor
    · by_cases hz : s.index = 0 <;> simp [visitPart, hl, hp, PrintState.print, hz, hw]
    · split <;> omega
  · rw [visitPart_expanded call recipes a2 recipe s hl hp,
      wrapInt_of_range _ (by norm_num; omega) hmax]
  · exact printPartsT_erase fuel recipes root depth ⟨0, []⟩
  · have h := (printPartsT_counter fuel recipes root depth ⟨0, []⟩).2
      ⟨le_refl _, by simp, fun e he => by cases he⟩ hlen
    exact ⟨h.2.2, h.1⟩

/-- Witness for C11: the raw part `Iron` visited at counter 1 lowers the counter
to 0, and the logged walk of `gearAndPlate` never sees a negative counter. -/
theorem printParts_counter_never_negative_witness :
    visitPart (fun _ _ => .outOfFuel) gearPlateRegistry ⟨"Iron", .num 2⟩ ⟨1, []⟩ =
      .done ⟨0, [.part 1 "Iron", .amount 1 (.num 2)]⟩ ∧
    NonNegative (printPartsT 2 gearPlateRegistry gearAndPlate 0 ⟨0, []⟩).state.log :=
  let h := printParts_counter_never_negative (fun _ _ => .outOfFuel) gearPlateRegistry
    ⟨"Iron", .num 2⟩ ⟨none, .num 1, .num 1⟩ ⟨1, []⟩ (by decide) (by decide) (by decide)
  ⟨(h.1 rfl).1, ((h.2.2 2 gearAndPlate 0).2 (by decide)).1⟩

/-- C13 fails on the code at the complete, acyclic registry `nestedRegistry`:
the walk from `R`, started with counter 0, begins the invocation for `B`, two
levels below the root, with the counter at 1 and writes its header with one
tab; and the invocation for `A`, one level below the root, writes its part
`raw` with one tab and its part `B` with none.  The raw part visited before
`B` has lowered the counter, which is never restored. -/
theorem printParts_nested_counter_differs_from_depth :
    Complete nestedRegistry nestedRoot ∧
    Ranked nestedRegistry nestedRoot
      (fun k => if k = "raw" then 0 else if k = "B" then 1 else if k = "A" then 2 else 3) 3 ∧
    printParts 3 nestedRegistry nestedRoot ⟨0, []⟩ = .done ⟨0, nestedLines⟩ ∧
    (printPartsT 3 nestedRegistry nestedRoot 0 ⟨0, []⟩).erase =
      printParts 3 nestedRegistry nestedRoot ⟨0, []⟩ ∧
    Event.enter 2 1 ∈ (printPartsT 3 nestedRegistry nestedRoot 0 ⟨0, []⟩).state.log ∧
    Event.line 2 (.craftingTime 1 (.num 3)) ∈
      (printPartsT 3 nestedRegistry nestedRoot 0 ⟨0, []⟩).state.log ∧
    Event.line 1 (.part 1 "raw") ∈
      (printPartsT 3 nestedRegistry nestedRoot 0 ⟨0, []⟩).state.log ∧
    Event.line 1 (.part 0 "B") ∈
      (printPartsT 3 nestedRegistry nestedRoot 0 ⟨0, []⟩).state.log ∧
    ¬ Aligned (printPartsT 3 nestedRegistry nestedRoot 0 ⟨0, []⟩).state.log := by
  have he : Event.enter 2 1 ∈ (printPartsT 3 nestedRegistry nestedRoot 0 ⟨0, []⟩).state.log := by
    decide
  refine ⟨by unfold Complete; decide, by unfold Ranked; decide, by decide, by decide, he,
    by decide, by decide, by decide, fun h => ?_⟩
  have := h _ he
  simp [Event.Aligned] at this

/-- In a chain the counter does follow the depth: when the root and every
recipe of the registry have at most one part, a walk started with counter 0
begins every invocation nested `d` levels below the root with the counter
equal to `d` and indents every line of that invocation by exactly `d` tabs
(recursion depths below `2 ^ 63`); and the walk returns when the registry is
complete and layered by a rank. -/
theorem printParts_chain_counter_is_depth (recipes : Registry) (root : Recipe) (fuel : Nat)
    (hroot : (root.Parts.getD []).length ≤ 1)
    (hreg : ∀ e ∈ recipes, (e.2.Parts.getD []).length ≤ 1) (hfuel : fuel < 2 ^ 63) :
    (printPartsT fuel recipes root 0 ⟨0, []⟩).erase = printParts fuel recipes root ⟨0, []⟩ ∧
    Aligned (printPartsT fuel recipes root 0 ⟨0, []⟩).state.log ∧
    (∀ rank n, Complete recipes root → Ranked recipes root rank n →
      ∃ s1, printParts (n + 1) recipes root ⟨0, []⟩ = .done s1) := by
  refine ⟨printPartsT_erase fuel recipes root 0 ⟨0, []⟩, ?_, ?_⟩
  · exact printPartsT_aligned recipes hreg fuel root hroot 0 ⟨0, []⟩ rfl (by omega)
      (fun e he => by cases he)
  · intro rank n hc hr
    exact printParts_returns recipes rank (fun e he p hp => ⟨hc.2 e he p hp, hr.2 e he p hp⟩)
      n root (fun p hp => ⟨hc.1 p hp, hr.1 p hp⟩) ⟨0, []⟩

/-- The chain `usesGear`, `Gear`, `Iron` in `gearPlateRegistry` is aligned. -/
theorem printParts_chain_counter_is_depth_witness :
    (∃ s1, printParts 2 gearPlateRegistry usesGear ⟨0, []⟩ = .done s1) ∧
    Aligned (printPartsT 2 gearPlateRegistry usesGear 0 ⟨0, []⟩).state.log ∧
    Event.enter 1 1 ∈ (printPartsT 2 gearPlateRegistry usesGear 0 ⟨0, []⟩).state.log :=
  let h := printParts_chain_counter_is_depth gearPlateRegistry usesGear 2 (by decide)
    (by decide) (by decide)
  ⟨⟨_, (by decide : printParts 2 gearPlateRegistry usesGear ⟨0, []⟩ = .done ⟨0,
      [.craftingTime 0 (.num 1), .outputAmount 0 (.num 1), .part 0 "Gear", .amount 0 (.num 1),
       .toCraft 0, .craftingTime 1 (.num 1), .outputAmount 1 (.num 1), .part 1 "Iron",
       .amount 1 (.num 2)]⟩)⟩, h.2.1, by decide⟩

/-! ## The graph: the claims -/

/-- C15: for an adjacency list with distinct keys, the graph
`NewGraph(WithAdjacencyList(list))` is well formed; its vertices are exactly
the keys of the list and the names in its edge lists; every vertex holds its
key as `Val`; every edge has weight 0 and points at the vertex stored under
the key it leads to; for every key of the list `Neighbors` returns the
distinct names of its edge list, each once; and visiting the entries of the
list in another order gives the same vertices, with the same `Val`, and the
same neighbours up to their order. -/
theorem NewGraph_WithAdjacencyList_spec (list : List (String × List String))
    (hkeys : (keysOf list).Nodup) :
    (NewGraph [WithAdjacencyList list]).WF ∧
    (∀ k, (NewGraph [WithAdjacencyList list]).Vertices.lookup k ≠ none ↔
      (k ∈ keysOf list ∨ ∃ p ∈ list, k ∈ p.2)) ∧
    (∀ k a, (NewGraph [WithAdjacencyList list]).Vertices.lookup k = some a →
      ∃ v, (NewGraph [WithAdjacencyList list]).heap[a]? = some v ∧ v.Val = k ∧
        ∀ e ∈ v.Edges, e.2.Weight = 0 ∧
          (NewGraph [WithAdjacencyList list]).Vertices.lookup e.1 = some e.2.Vertex) ∧
    (∀ k edges, (k, edges) ∈ list →
      ∃ ns, (NewGraph [WithAdjacencyList list]).Neighbors k = some ns ∧ ns.Nodup ∧
        ∀ d, d ∈ ns ↔ d ∈ edges) ∧
    (∀ list2, list.Perm list2 →
      (∀ k, (NewGraph [WithAdjacencyList list2]).Vertices.lookup k ≠ none ↔
        (NewGraph [WithAdjacencyList list]).Vertices.lookup k ≠ none) ∧
      (∀ k a, (NewGraph [WithAdjacencyList list2]).Vertices.lookup k = some a →
        ∃ v, (NewGraph [WithAdjacencyList list2]).heap[a]? = some v ∧ v.Val = k) ∧
      ∀ k ns, (NewGraph [WithAdjacencyList list]).Neighbors k = some ns →
        ∃ ns2, (NewGraph [WithAdjacencyList list2]).Neighbors k = some ns2 ∧ ns.Perm ns2) := by
  have hD := NewGraph_Describes list
  refine ⟨hD.1, hD.2.1, fun k a hk => ?_, fun k edges hmem => ?_, fun list2 hperm => ?_⟩
  · obtain ⟨v, hv, hval, he, _⟩ := hD.2.2.2 k a hk
    exact ⟨v, hv, hval, he⟩
  · obtain ⟨ns, hns, hnd, hiff⟩ := Neighbors_of_Describes _ _ _ hD k
      (Or.inl (List.mem_map.mpr ⟨(k, edges), hmem, rfl⟩))
    refine ⟨ns, hns, hnd, fun d => (hiff d).trans ⟨?_, fun hd => ⟨(k, edges), hmem, rfl, hd⟩⟩⟩
    rintro ⟨p, hp, hpk, hd⟩
    have hl1 := lookup_of_mem_nodup list p.1 p.2 hkeys hp
    have hl2 := lookup_of_mem_nodup list k edges hkeys hmem
    rw [hpk, hl2] at hl1
    rw [Option.some.inj hl1]
    exact hd
  · have hD2 := NewGraph_Describes list2
    have hV : ∀ x, (x ∈ keysOf list2 ∨ ∃ p ∈ list2, x ∈ p.2) ↔
        (x ∈ keysOf list ∨ ∃ p ∈ list, x ∈ p.2) := by
      intro x
      simp only [keysOf, List.mem_map, hperm.mem_iff]
    have hE : ∀ x y, (∃ p ∈ list2, p.1 = x ∧ y ∈ p.2) ↔ (∃ p ∈ list, p.1 = x ∧ y ∈ p.2) := by
      intro x y
      simp only [hperm.mem_iff]
    refine ⟨fun k => (hD2.2.1 k).trans ((hV k).trans (hD.2.1 k).symm), fun k a hk => ?_,
      fun k ns hns => ?_⟩
    · obtain ⟨v, hv, hval, _⟩ := hD2.2.2.2 k a hk
      exact ⟨v, hv, hval⟩
    · have hk : (NewGraph [WithAdjacencyList list]).Vertices.lookup k ≠ none := by
        intro hnone
        simp [Graph.Neighbors, hnone] at hns
      have hVk := (hD.2.1 k).mp hk
      obtain ⟨ns1, hns1, hnd1, hiff1⟩ := Neighbors_of_Describes _ _ _ hD k hVk
      obtain ⟨ns2, hns2, hnd2, hiff2⟩ := Neighbors_of_Describes _ _ _ hD2 k ((hV k).mpr hVk)
      rw [hns] at hns1
      cases hns1
      refine ⟨ns2, hns2, (List.perm_ext_iff_of_nodup hnd1 hnd2).mpr fun d => ?_⟩
      exact (hiff1 d).trans ((hE k d).symm.trans (hiff2 d).symm)

/-- Witness for C15: the adjacency list `{a: [b, c, b], c: [a]}`. -/
theorem NewGraph_WithAdjacencyList_spec_witness :
    (NewGraph [WithAdjacencyList sampleList]).Neighbors "a" = some ["b", "c"] ∧
    ∃ ns, (NewGraph [WithAdjacencyList sampleList]).Neighbors "a" = some ns ∧ ns.Nodup ∧
      ∀ d, d ∈ ns ↔ d ∈ ["b", "c", "b"] :=
  ⟨by decide, (NewGraph_WithAdjacencyList_spec sampleList (by decide)).2.2.2.1 "a"
    ["b", "c", "b"] (by decide)⟩

/-- C16: in a well-formed graph, `AddEdge` leaves the graph unchanged when the
source or the destination is not a vertex.  Otherwise the map of vertices is
unchanged, every `Vertex` object other than the one of the source, so the
vertex of every other key, is unchanged, and the object of the source keeps
its `Val` and its other edges, while its edge to the destination, exactly one,
has the given weight and points at the vertex of the destination.  The graph
stays well formed. -/
theorem AddEdge_changes_one_edge (g : Graph) (hwf : g.WF) (src dst : String) (w : Int) :
    ((g.Vertices.lookup src = none ∨ g.Vertices.lookup dst = none) →
      g.AddEdge src dst w = g) ∧
    (∀ a b, g.Vertices.lookup src = some a → g.Vertices.lookup dst = some b →
      (g.AddEdge src dst w).Vertices = g.Vertices ∧
      (g.AddEdge src dst w).heap.length = g.heap.length ∧
      (∀ a2, a2 ≠ a → (g.AddEdge src dst w).heap[a2]? = g.heap[a2]?) ∧
      (∀ k a2, k ≠ src → g.Vertices.lookup k = some a2 →
        (g.AddEdge src dst w).heap[a2]? = g.heap[a2]?) ∧
      ∃ v v2, g.heap[a]? = some v ∧ (g.AddEdge src dst w).heap[a]? = some v2 ∧
        v2.Val = v.Val ∧ v2.Edges.lookup dst = some ⟨w, b⟩ ∧
        (∀ d, d ≠ dst → v2.Edges.lookup d = v.Edges.lookup d) ∧
        (keysOf v2.Edges).count dst = 1 ∧
        (∀ d, d ∈ keysOf v2.Edges ↔ d = dst ∨ d ∈ keysOf v.Edges)) ∧
    (g.AddEdge src dst w).WF := by
  refine ⟨?_, ?_, AddEdge_WF g hwf src dst w⟩
  · rintro (h | h)
    · simp [Graph.AddEdge, h]
    · cases hs : g.Vertices.lookup src <;> simp [Graph.AddEdge, hs, h]
  · intro a b hs hd
    obtain ⟨v, hv⟩ := WF_vertex g hwf src a hs
    have hlt : a < g.heap.length := hwf.2.2.1 (src, a) (mem_of_lookup_eq_some _ src a hs)
    rw [AddEdge_eq g src dst w a b v hs hd hv]
    have hframe : ∀ a2, a2 ≠ a →
        (g.heap.set a { v with Edges := mapSet v.Edges dst ⟨w, b⟩ })[a2]? = g.heap[a2]? :=
      fun a2 h2 => List.getElem?_set_ne (fun h' => h2 h'.symm)
    refine ⟨rfl, by simp, hframe, ?_, ?_⟩
    · intro k a2 hk hk2
      apply hframe
      intro h2
      subst h2
      have hn := hwf.2.1
      have h1 := mem_of_lookup_eq_some _ k a2 hk2
      have h2 := mem_of_lookup_eq_some _ src a2 hs
      have := List.inj_on_of_nodup_map hn h1 h2 rfl
      exact hk (by simpa using congrArg Prod.fst this)
    · refine ⟨v, { v with Edges := mapSet v.Edges dst ⟨w, b⟩ }, hv, ?_, rfl, ?_, ?_, ?_, ?_⟩
      · simp [List.getElem?_set, hlt]
      · simp [lookup_mapSet]
      · intro d hd2
        simp [lookup_mapSet, hd2]
      · have hnd := nodup_keysOf_mapSet v.Edges dst (⟨w, b⟩ : Edge)
          (hwf.2.2.2 v (List.getElem?_mem hv)).1
        exact List.count_eq_one_of_mem hnd ((mem_keysOf_mapSet _ _ _ _).mpr (Or.inl rfl))
      · intro d
        exact mem_keysOf_mapSet _ _ _ _

/-- Witness for C16: an edge from `b` to `c` of weight 7 added to the graph of
`{a: [b, c, b], c: [a]}`, where `b` and `c` are the objects at 1 and 2. -/
theorem AddEdge_changes_one_edge_witness :
    (NewGraph [WithAdjacencyList sampleList]).WF ∧
    ((NewGraph [WithAdjacencyList sampleList]).AddEdge "b" "c" 7).Neighbors "b" = some ["c"] ∧
    ((NewGraph [WithAdjacencyList sampleList]).AddEdge "b" "c" 7).Vertices =
      (NewGraph [WithAdjacencyList sampleList]).Vertices :=
  ⟨by unfold Graph.WF; decide, by decide,
    ((AddEdge_changes_one_edge (NewGraph [WithAdjacencyList sampleList])
      (by unfold Graph.WF; decide) "b" "c" 7).2.1 1 2 (by decide) (by decide)).1⟩

/-- C17: in a well-formed graph, `Neighbors` panics exactly when the key is not
a vertex; for a vertex it returns, edge by edge, the `Val` of the vertex each
outgoing edge points at: one entry per edge, and the empty list when the
vertex has no outgoing edge. -/
theorem Neighbors_fails_iff_no_vertex (g : Graph) (hwf : g.WF) (k : String) :
    (g.Neighbors k = none ↔ g.Vertices.lookup k = none) ∧
    (∀ a, g.Vertices.lookup k = some a →
      ∃ v ns, g.heap[a]? = some v ∧ g.Neighbors k = some ns ∧
        List.Forall₂ (fun e n => ∃ u, g.heap[e.2.Vertex]? = some u ∧ u.Val = n) v.Edges ns ∧
        ns.length = v.Edges.length ∧ (v.Edges = [] → ns = [])) := by
  have hsome : ∀ a, g.Vertices.lookup k = some a →
      ∃ v ns, g.heap[a]? = some v ∧ g.Neighbors k = some ns ∧
        List.Forall₂ (fun e n => ∃ u, g.heap[e.2.Vertex]? = some u ∧ u.Val = n) v.Edges ns ∧
        ns.length = v.Edges.length ∧ (v.Edges = [] → ns = []) := by
    intro a ha
    obtain ⟨v, hv⟩ := WF_vertex g hwf k a ha
    obtain ⟨ns, hns, hf⟩ := neighborsLoop_spec g.heap v.Edges []
      (hwf.2.2.2 v (List.getElem?_mem hv)).2
    refine ⟨v, ns, hv, by simpa [Graph.Neighbors, ha, hv] using hns, hf, hf.length_eq.symm, ?_⟩
    intro he
    rw [he] at hf
    cases hf
    rfl
  refine ⟨⟨fun h => ?_, fun h => by simp [Graph.Neighbors, h]⟩, hsome⟩
  cases ha : g.Vertices.lookup k with
  | none => rfl
  | some a =>
    obtain ⟨v, ns, _, hn, _⟩ := hsome a ha
    rw [hn] at h
    cases h

/-- Witness for C17: in the graph of `{a: [b, c, b], c: [a]}`, `z` is not a
vertex and `b` has no outgoing edge. -/
theorem Neighbors_fails_iff_no_vertex_witness :
    (NewGraph [WithAdjacencyList sampleList]).WF ∧
    (NewGraph [WithAdjacencyList sampleList]).Neighbors "z" = none ∧
    (NewGraph [WithAdjacencyList sampleList]).Neighbors "b" = some [] :=
  ⟨by unfold Graph.WF; decide,
    ((Neighbors_fails_iff_no_vertex (NewGraph [WithAdjacencyList sampleList])
      (by unfold Graph.WF; decide) "z").1).mpr (by decide), by decide⟩

end Factorio
